import Mathlib

/-!
Verification development for the graylog-mcp repository.

This file shallowly embeds the parts of the Go source that the frozen
claims talk about: the generic result-fitting algorithm (`fitResult` in
tools), the content-hash deduplication engine (package `dedup`), the
context-window assembly helpers (`get_log_context`), field projection
(`Message.ToFilteredMap`), and byte-level string truncation
(`truncateString`).  Go maps are modelled as association lists with
`setKey` giving Go's replace-on-insert semantics; `json.Marshal` is
modelled by a renderer that sorts object keys exactly as Go does, and
values that Go cannot marshal (e.g. channels) are a dedicated
constructor on which the renderer fails, mirroring `json.Marshal`
returning an error.
-/

namespace GraylogMCP

/-- Association-list lookup, modelling reading `m[k]` from a Go map. -/
def alookup {α : Type} (l : List (String × α)) (k : String) : Option α :=
  match l with
  | [] => none
  | (k', v) :: rest => if k' = k then some v else alookup rest k

/-- Association-list insertion, modelling `m[k] = v` on a Go map:
the existing binding is replaced, otherwise the binding is appended. -/
def setKey {α : Type} (l : List (String × α)) (k : String) (v : α) : List (String × α) :=
  match l with
  | [] => [(k, v)]
  | (k', v') :: rest => if k' = k then (k, v) :: rest else (k', v') :: setKey rest k v

/-- List of keys of an association list. -/
def mapKeys {α : Type} (l : List (String × α)) : List String := l.map (·.1)

/-- Update the element at index `i` in place (no-op when out of range),
modelling `results[idx] = ...` on a Go slice. -/
def updateAt {α : Type} (i : Nat) (f : α → α) : List α → List α
  | [] => []
  | x :: xs =>
    match i with
    | 0 => f x :: xs
    | i' + 1 => x :: updateAt i' f xs

/-! ### Go dynamic values (`any`) as they occur in this code base -/

/-- A Go `any` value as it can appear in a message field map: the JSON
shapes produced by `json.Unmarshal`, plus `chan`, a value that
`json.Marshal` rejects (its argument records what `fmt`'s `%v` verb
would print for it). -/
inductive JVal where
  | null : JVal
  | bool : Bool → JVal
  | num : Int → JVal
  | str : String → JVal
  | arr : List JVal → JVal
  | obj : List (String × JVal) → JVal
  | chan : String → JVal

/-- Lowercase hexadecimal digit characters, as produced by Go. -/
def hexDigitChar (n : Nat) : Char :=
  match n with
  | 0 => '0' | 1 => '1' | 2 => '2' | 3 => '3' | 4 => '4'
  | 5 => '5' | 6 => '6' | 7 => '7' | 8 => '8' | 9 => '9'
  | 10 => 'a' | 11 => 'b' | 12 => 'c' | 13 => 'd' | 14 => 'e'
  | _ => 'f'

/-- Escape one character the way Go's `encoding/json` encoder does with
its default HTML escaping (`"`, `\`, control characters, `<`, `>`, `&`,
U+2028 and U+2029 are escaped; everything else is emitted verbatim). -/
def escapeChar (c : Char) : String :=
  if c = '"' then "\\\""
  else if c = '\\' then "\\\\"
  else if c = '\n' then "\\n"
  else if c = '\r' then "\\r"
  else if c = '\t' then "\\t"
  else if c.toNat < 0x20 then
    "\\u00" ++ String.mk [hexDigitChar (c.toNat / 16), hexDigitChar (c.toNat % 16)]
  else if c = '<' then "\\u003c"
  else if c = '>' then "\\u003e"
  else if c = '&' then "\\u0026"
  else if c.toNat = 0x2028 then "\\u2028"
  else if c.toNat = 0x2029 then "\\u2029"
  else String.mk [c]

/-- Go JSON string encoding: quotes around the escaped character run. -/
def quoteString (s : String) : String :=
  "\"" ++ s.data.foldl (fun acc c => acc ++ escapeChar c) "" ++ "\""

/-- Comma-join of already-rendered JSON items. -/
def joinComma : List String → String
  | [] => ""
  | [s] => s
  | s :: rest => s ++ "," ++ joinComma rest

/-- Space-join used by Go's `fmt` for slices and maps. -/
def joinSpace : List String → String
  | [] => ""
  | [s] => s
  | s :: rest => s ++ " " ++ joinSpace rest

/-- Lexicographic comparison of character lists; on valid UTF-8 this is
exactly Go's byte-wise string order (UTF-8 preserves code-point order). -/
def charListLe : List Char → List Char → Bool
  | [], _ => true
  | _ :: _, [] => false
  | a :: as, b :: bs => if a < b then true else if b < a then false else charListLe as bs

/-- Go's string order `a <= b`. -/
def keyLe (a b : String) : Bool := charListLe a.data b.data

/-- Sort an association list by key, modelling Go's `json.Marshal`
emitting map entries in increasing key order. -/
def sortPairsByKey {α : Type} (l : List (String × α)) : List (String × α) :=
  List.insertionSort (fun p q => keyLe p.1 q.1 = true) l

mutual

/-- Model of `json.Marshal` on a Go `any` value: `none` is a marshal
error, which happens exactly when the value contains a `chan`. -/
def jsonMarshal : JVal → Option String
  | .null => some "null"
  | .bool b => some (if b then "true" else "false")
  | .num n => some (toString n)
  | .str s => some (quoteString s)
  | .arr l =>
    match jsonMarshalList l with
    | some parts => some ("[" ++ joinComma parts ++ "]")
    | none => none
  | .obj l =>
    match jsonMarshalPairs l with
    | some kvs =>
      some ("\x7b" ++
        joinComma ((sortPairsByKey kvs).map (fun kv => quoteString kv.1 ++ ":" ++ kv.2)) ++
        "\x7d")
    | none => none
  | .chan _ => none

/-- Marshal the elements of a JSON array, propagating failure. -/
def jsonMarshalList : List JVal → Option (List String)
  | [] => some []
  | v :: vs =>
    match jsonMarshal v, jsonMarshalList vs with
    | some s, some ss => some (s :: ss)
    | _, _ => none

/-- Marshal the values of a JSON object, keeping keys, propagating failure. -/
def jsonMarshalPairs : List (String × JVal) → Option (List (String × String))
  | [] => some []
  | (k, v) :: rest =>
    match jsonMarshal v, jsonMarshalPairs rest with
    | some s, some ss => some ((k, s) :: ss)
    | _, _ => none

end

mutual

/-- Model of Go's `fmt` `%v` formatting of an `any` value, used by
`marshalToHash` as the fallback when `json.Marshal` fails; `fmt` prints
map entries in increasing key order. -/
def fmtV : JVal → String
  | .null => "<nil>"
  | .bool b => if b then "true" else "false"
  | .num n => toString n
  | .str s => s
  | .arr l => "[" ++ joinSpace (fmtVList l) ++ "]"
  | .obj l =>
    "map[" ++
      joinSpace ((sortPairsByKey (fmtVPairs l)).map (fun kv => kv.1 ++ ":" ++ kv.2)) ++ "]"
  | .chan r => r

/-- Format the elements of a slice for `%v`. -/
def fmtVList : List JVal → List String
  | [] => []
  | v :: vs => fmtV v :: fmtVList vs

/-- Format the values of a map for `%v`, keeping keys. -/
def fmtVPairs : List (String × JVal) → List (String × String)
  | [] => []
  | (k, v) :: rest => (k, fmtV v) :: fmtVPairs rest

end

/-! ### UTF-8 bytes and SHA-256 -/

/-- UTF-8 encoding of one character as byte values. -/
def utf8EncodeCharNat (c : Char) : List Nat :=
  let n := c.toNat
  if n < 0x80 then [n]
  else if n < 0x800 then [0xC0 + n / 64, 0x80 + n % 64]
  else if n < 0x10000 then [0xE0 + n / 4096, 0x80 + n / 64 % 64, 0x80 + n % 64]
  else [0xF0 + n / 262144, 0x80 + n / 4096 % 64, 0x80 + n / 64 % 64, 0x80 + n % 64]

/-- UTF-8 byte sequence of a string; Go strings are exactly such byte
sequences, and `len(s)` is the length of this list. -/
def utf8Bytes (s : String) : List Nat :=
  s.data.foldr (fun c acc => utf8EncodeCharNat c ++ acc) []

/-- Byte length of a string, Go's `len(s)` / `len(jsonBytes)`. -/
def byteLen (s : String) : Nat := (utf8Bytes s).length

/-- Right rotation of a 32-bit word. -/
def rotr32 (x n : Nat) : Nat := (x / 2 ^ n + x % 2 ^ n * 2 ^ (32 - n)) % 2 ^ 32

/-- Addition modulo 2^32. -/
def add32 (a b : Nat) : Nat := (a + b) % 2 ^ 32

/-- Three-way xor. -/
def xor3 (a b c : Nat) : Nat := Nat.xor (Nat.xor a b) c

/-- SHA-256 big sigma 0. -/
def bSig0 (x : Nat) : Nat := xor3 (rotr32 x 2) (rotr32 x 13) (rotr32 x 22)

/-- SHA-256 big sigma 1. -/
def bSig1 (x : Nat) : Nat := xor3 (rotr32 x 6) (rotr32 x 11) (rotr32 x 25)

/-- SHA-256 small sigma 0. -/
def sSig0 (x : Nat) : Nat := xor3 (rotr32 x 7) (rotr32 x 18) (x / 2 ^ 3)

/-- SHA-256 small sigma 1. -/
def sSig1 (x : Nat) : Nat := xor3 (rotr32 x 17) (rotr32 x 19) (x / 2 ^ 10)

/-- SHA-256 choice function. -/
def shaCh (x y z : Nat) : Nat :=
  Nat.xor (Nat.land x y) (Nat.land (Nat.xor x 0xffffffff) z)

/-- SHA-256 majority function. -/
def shaMaj (x y z : Nat) : Nat :=
  xor3 (Nat.land x y) (Nat.land x z) (Nat.land y z)

/-- SHA-256 round constants (FIPS 180-4, here in decimal). -/
def shaK : List Nat :=
  [1116352408, 1899447441, 3049323471, 3921009573, 961987163, 1508970993,
   2453635748, 2870763221, 3624381080, 310598401, 607225278, 1426881987,
   1925078388, 2162078206, 2614888103, 3248222580, 3835390401, 4022224774,
   264347078, 604807628, 770255983, 1249150122, 1555081692, 1996064986,
   2554220882, 2821834349, 2952996808, 3210313671, 3336571891, 3584528711,
   113926993, 338241895, 666307205, 773529912, 1294757372, 1396182291,
   1695183700, 1986661051, 2177026350, 2456956037, 2730485921, 2820302411,
   3259730800, 3345764771, 3516065817, 3600352804, 4094571909, 275423344,
   430227734, 506948616, 659060556, 883997877, 958139571, 1322822218,
   1537002063, 1747873779, 1955562222, 2024104815, 2227730452, 2361852424,
   2428436474, 2756734187, 3204031479, 3329325298]

/-- SHA-256 working state: eight 32-bit words. -/
structure Sha8 where
  sa : Nat
  sb : Nat
  sc : Nat
  sd : Nat
  se : Nat
  sf : Nat
  sg : Nat
  sh : Nat

/-- SHA-256 initial hash value (FIPS 180-4, here in decimal). -/
def shaInit : Sha8 :=
  ⟨1779033703, 3144134277, 1013904242, 2773480762,
   1359893119, 2600822924, 528734635, 1541459225⟩

/-- One SHA-256 compression round for a round constant / schedule word pair. -/
def shaRound (st : Sha8) (kw : Nat × Nat) : Sha8 :=
  let t1 := add32 st.sh (add32 (bSig1 st.se) (add32 (shaCh st.se st.sf st.sg) (add32 kw.1 kw.2)))
  let t2 := add32 (bSig0 st.sa) (shaMaj st.sa st.sb st.sc)
  ⟨add32 t1 t2, st.sa, st.sb, st.sc, add32 st.sd t1, st.se, st.sf, st.sg⟩

/-- Extend a 16-word block to the 64-word message schedule. -/
def extendSchedule (ws : List Nat) : Nat → List Nat
  | 0 => ws
  | n + 1 =>
    let len := ws.length
    let w := add32 (sSig1 (ws.getD (len - 2) 0))
      (add32 (ws.getD (len - 7) 0)
        (add32 (sSig0 (ws.getD (len - 15) 0)) (ws.getD (len - 16) 0)))
    extendSchedule (ws ++ [w]) n

/-- Big-endian word from four bytes. -/
def be32 (b : List Nat) : Nat := b.foldl (fun a x => a * 256 + x) 0

/-- Split a byte list into consecutive chunks of `n + 1` bytes (the
successor argument keeps the chunk size positive, so the recursion
terminates). -/
def chunkList (n : Nat) : List Nat → List (List Nat)
  | [] => []
  | x :: xs => ((x :: xs).take (n + 1)) :: chunkList n ((x :: xs).drop (n + 1))
termination_by l => l.length
decreasing_by simp only [List.length_drop, List.length_cons]; omega

/-- Compress one 64-byte block into the running hash state. -/
def shaCompress (st : Sha8) (block : List Nat) : Sha8 :=
  let ws := extendSchedule ((chunkList 3 block).map be32) 48
  let r := (shaK.zip ws).foldl shaRound st
  ⟨add32 st.sa r.sa, add32 st.sb r.sb, add32 st.sc r.sc, add32 st.sd r.sd,
   add32 st.se r.se, add32 st.sf r.sf, add32 st.sg r.sg, add32 st.sh r.sh⟩

/-- Big-endian 8-byte encoding of the bit length. -/
def be64 (n : Nat) : List Nat :=
  [n / 2 ^ 56 % 256, n / 2 ^ 48 % 256, n / 2 ^ 40 % 256, n / 2 ^ 32 % 256,
   n / 2 ^ 24 % 256, n / 2 ^ 16 % 256, n / 2 ^ 8 % 256, n % 256]

/-- SHA-256 padding of a byte message. -/
def shaPad (msg : List Nat) : List Nat :=
  msg ++ [0x80] ++ List.replicate ((64 - (msg.length + 9) % 64) % 64) 0 ++ be64 (8 * msg.length)

/-- Lowercase hexadecimal rendering of one 32-bit word (8 digits). -/
def wordHex (w : Nat) : String :=
  String.mk [hexDigitChar (w / 16 ^ 7 % 16), hexDigitChar (w / 16 ^ 6 % 16),
    hexDigitChar (w / 16 ^ 5 % 16), hexDigitChar (w / 16 ^ 4 % 16),
    hexDigitChar (w / 16 ^ 3 % 16), hexDigitChar (w / 16 ^ 2 % 16),
    hexDigitChar (w / 16 % 16), hexDigitChar (w % 16)]

/-- Hex digest of the SHA-256 of a byte sequence, as `fmt.Sprintf("%x",
h.Sum(nil))` prints it: 64 lowercase hex characters. -/
def sha256hexBytes (msg : List Nat) : String :=
  let st := ((chunkList 63 (shaPad msg)).foldl shaCompress shaInit)
  wordHex st.sa ++ wordHex st.sb ++ wordHex st.sc ++ wordHex st.sd ++
    wordHex st.se ++ wordHex st.sf ++ wordHex st.sg ++ wordHex st.sh

/-- SHA-256 hex digest of a string's UTF-8 bytes. -/
def sha256hex (s : String) : String := sha256hexBytes (utf8Bytes s)

/-! ### The graylog data model (`graylog/types.go`) -/

/-- The `graylog.Message` struct: typed identity fields plus the open
`Extra` map of extension fields. -/
structure Message where
  ID : String
  Timestamp : String
  Source : String
  Message : String
  Extra : List (String × JVal)

/-- The `graylog.MessageWrapper` struct: a message plus its origin index. -/
structure MessageWrapper where
  Message : Message
  Index : String

/-! ### Deduplication (`dedup/dedup.go`) -/

/-- The `dedup.DedupResult` struct. -/
structure DedupResult where
  Message : Message
  Index : String
  Count : Nat
  MessageIDs : List String

/-- Fields excluded from content hashing (`shouldSkipField`). -/
def shouldSkipField (field : String) : Bool :=
  field = "_id" || field = "timestamp" || field = "index"

/-- The flat map `messageToMap` builds for hashing: `source`, `message`
and the `Extra` entries (later entries overwrite, as Go map writes do). -/
def messageToMap (msg : Message) : List (String × JVal) :=
  msg.Extra.foldl (fun acc kv => setKey acc kv.1 kv.2)
    [("source", .str msg.Source), ("message", .str msg.Message)]

/-- The `sortedMap` canonicalization: the map's keys sorted ascending,
each paired with its value, exactly as `sort.Strings` + indexing do. -/
def sortedMap (m : List (String × JVal)) : List (String × JVal) :=
  (List.insertionSort (fun a b => keyLe a b = true) (mapKeys m)).map
    (fun k => (k, (alookup m k).getD JVal.null))

/-- The `[][2]any` value that `sortedMap` returns, as a single Go value
(a slice of two-element slices) ready for `json.Marshal`. -/
def pairsToJVal (l : List (String × JVal)) : JVal :=
  .arr (l.map (fun kv => .arr [.str kv.1, kv.2]))

/-- The bytes `marshalToHash` writes into the hasher: the JSON encoding
when `json.Marshal` succeeds, else the `fmt` `%v` rendering. -/
def marshalToHashBytes (v : JVal) : String :=
  match jsonMarshal v with
  | some b => b
  | none => fmtV v

/-- The field map `hashMessage` selects before canonicalization: the
allow-listed fields when `hashFields` is non-empty, otherwise everything
except the skipped identity fields. -/
def hashData (msg : Message) (hashFields : List String) : List (String × JVal) :=
  if 0 < hashFields.length then
    let all := messageToMap msg
    hashFields.foldl (fun data f =>
      match alookup all f with
      | some v => setKey data f v
      | none => data) []
  else
    (messageToMap msg).filter (fun kv => !(shouldSkipField kv.1))

/-- The exact byte string fed to SHA-256 by `hashMessage`: the hash
preimage. -/
def hashInput (msg : Message) (hashFields : List String) : String :=
  marshalToHashBytes (pairsToJVal (sortedMap (hashData msg hashFields)))

/-- The `hashMessage` content hash: hex SHA-256 of the canonical bytes. -/
def hashMessage (msg : Message) (hashFields : List String) : String :=
  sha256hex (hashInput msg hashFields)

/-- A fresh group created for a first-seen hash (count 1, the message's
own id as the only sample). -/
def newGroup (mw : MessageWrapper) : DedupResult :=
  ⟨mw.Message, mw.Index, 1, [mw.Message.ID]⟩

/-- Updating an existing group for a repeated hash: increment the count
and append the message id. -/
def bumpGroup (id : String) (g : DedupResult) : DedupResult :=
  { g with Count := g.Count + 1, MessageIDs := g.MessageIDs ++ [id] }

/-- One iteration of the `Deduplicate` loop over `(seen, results)`. -/
def dedupStep (hashFields : List String)
    (acc : List (String × Nat) × List DedupResult) (mw : MessageWrapper) :
    List (String × Nat) × List DedupResult :=
  let h := hashMessage mw.Message hashFields
  match alookup acc.1 h with
  | some idx => (acc.1, updateAt idx (bumpGroup mw.Message.ID) acc.2)
  | none => (setKey acc.1 h acc.2.length, acc.2 ++ [newGroup mw])

/-- The `dedup.Deduplicate` function. -/
def Deduplicate (messages : List MessageWrapper) (hashFields : List String) :
    List DedupResult :=
  (messages.foldl (dedupStep hashFields) ([], [])).2

/-- Sum of the group counts of a deduplication result. -/
def sumCounts (l : List DedupResult) : Nat := (l.map (·.Count)).sum

/-- Index of the first group whose representative message has content
hash `h` (what the `seen` map of `Deduplicate` records). -/
def groupIdx (hashFields : List String) (h : String) : List DedupResult → Option Nat
  | [] => none
  | g :: gs =>
    if hashMessage g.Message hashFields = h then some 0
    else (groupIdx hashFields h gs).map (· + 1)

/-! ### Field projection (`Message.ToFilteredMap`) -/

/-- The result map `ToFilteredMap` starts from: the four core fields,
which are always included. -/
def coreFields (m : Message) : List (String × JVal) :=
  [("_id", JVal.str m.ID), ("timestamp", JVal.str m.Timestamp),
    ("source", JVal.str m.Source), ("message", JVal.str m.Message)]

/-- The `Message.ToFilteredMap` method: core fields always, `Extra`
entries either all (empty filter) or only the requested ones. -/
def ToFilteredMap (m : Message) (fields : List String) : List (String × JVal) :=
  if fields.length = 0 then
    m.Extra.foldl (fun acc kv => setKey acc kv.1 kv.2) (coreFields m)
  else
    m.Extra.foldl (fun acc kv =>
      if fields.contains kv.1 then setKey acc kv.1 kv.2 else acc) (coreFields m)

/-! ### The result fitter (`fitResult` in tools) -/

/-- A Go `any` value as stored in a tool result map: a JSON-able value,
a `[]graylog.MessageWrapper` slice, or a `*graylog.MessageWrapper`. -/
inductive GVal where
  | j : JVal → GVal
  | msgs : List MessageWrapper → GVal
  | wrapper : MessageWrapper → GVal

/-- A tool result object, Go's `map[string]any`. -/
abbrev RMap := List (String × GVal)

/-- The map `Message.MarshalJSON` builds: `_id`, `timestamp`, `source`,
`message` plus the `Extra` entries. -/
def messageMarshalMap (m : Message) : List (String × JVal) :=
  m.Extra.foldl (fun acc kv => setKey acc kv.1 kv.2)
    [("_id", .str m.ID), ("timestamp", .str m.Timestamp),
     ("source", .str m.Source), ("message", .str m.Message)]

/-- JSON encoding of a `graylog.Message` (via its `MarshalJSON`). -/
def jsonMarshalMessage (m : Message) : Option String :=
  jsonMarshal (.obj (messageMarshalMap m))

/-- JSON encoding of a `graylog.MessageWrapper`: struct fields in
declaration order (`message`, then `index`). -/
def jsonMarshalWrapper (mw : MessageWrapper) : Option String :=
  match jsonMarshalMessage mw.Message with
  | some ms =>
    some ("\x7b\"message\":" ++ ms ++ ",\"index\":" ++ quoteString mw.Index ++ "\x7d")
  | none => none

/-- JSON encoding of a `[]graylog.MessageWrapper`. -/
def jsonMarshalWrappers : List MessageWrapper → Option (List String)
  | [] => some []
  | mw :: rest =>
    match jsonMarshalWrapper mw, jsonMarshalWrappers rest with
    | some s, some ss => some (s :: ss)
    | _, _ => none

/-- JSON encoding of one tool-result value. -/
def jsonMarshalG : GVal → Option String
  | .j v => jsonMarshal v
  | .msgs l =>
    match jsonMarshalWrappers l with
    | some parts => some ("[" ++ joinComma parts ++ "]")
    | none => none
  | .wrapper mw => jsonMarshalWrapper mw

/-- JSON encoding of the values of a tool result map, keeping keys. -/
def marshalGPairs : RMap → Option (List (String × String))
  | [] => some []
  | (k, v) :: rest =>
    match jsonMarshalG v, marshalGPairs rest with
    | some s, some ss => some ((k, s) :: ss)
    | _, _ => none

/-- Model of `json.Marshal(result)` on a tool result map (Go emits map
entries in increasing key order); `none` is a marshal error. -/
def marshalMap (r : RMap) : Option String :=
  match marshalGPairs r with
  | some kvs =>
    some ("\x7b" ++
      joinComma ((sortPairsByKey kvs).map (fun kv => quoteString kv.1 ++ ":" ++ kv.2)) ++
      "\x7d")
  | none => none

/-- The `resultAdapter` callback triple injected into `fitResult`. -/
structure ResultAdapter where
  truncateMsgs : Nat → RMap → RMap
  reduceMsgs : RMap → Bool × RMap
  lastResort : Option (RMap → RMap)

/-- What a fitting call returns: a JSON text result (`toolSuccessJSON` /
`toolSuccess`) or an error result (`toolError`). -/
inductive FitOutcome where
  | success : String → FitOutcome
  | errorOut : String → FitOutcome
deriving DecidableEq

/-- One shrink step taken by `fitResult`, for stating the phase
structure: a Phase 1 truncation at some cap, a Phase 2 `reduceMsgs` call
with its returned flag, or the last-resort fallback. -/
inductive FitEvent where
  | truncate : Nat → FitEvent
  | reduce : Bool → FitEvent
  | fallback : FitEvent

/-- The error payload used when `json.Marshal` fails. -/
def marshalFailMsg : String := "failed to marshal response"

/-- Model of `toolSuccess(result)`: marshal and wrap, error on failure. -/
def passThru (r : RMap) : FitOutcome :=
  match marshalMap r with
  | some s => .success s
  | none => .errorOut marshalFailMsg

/-- Phase 1 of `fitResult`: walk the cap list, truncating, marking
`response_truncated`, re-serializing, and stopping early with an outcome
when within budget (or on a marshal error).  Returns the final map, the
caps actually used, and the early outcome if any. -/
def fitPhase1 (adapter : ResultAdapter) (maxSize : Int) :
    List Nat → RMap → RMap × List Nat × Option FitOutcome
  | [], r => (r, [], none)
  | cap :: caps, r =>
    let r1 := setKey (adapter.truncateMsgs cap r) "response_truncated" (.j (.bool true))
    match marshalMap r1 with
    | none => (r1, [cap], some (.errorOut marshalFailMsg))
    | some s =>
      if (byteLen s : Int) ≤ maxSize then (r1, [cap], some (.success s))
      else
        let rest := fitPhase1 adapter maxSize caps r1
        (rest.1, cap :: rest.2.1, rest.2.2)

/-- Phase 2 of `fitResult`: call `reduceMsgs` while fuel remains,
breaking when it returns `false`, marking and re-serializing after each
successful call.  Returns the final map, the list of booleans the calls
returned in order, and the early outcome if any. -/
def fitPhase2 (adapter : ResultAdapter) (maxSize : Int) :
    Nat → RMap → RMap × List Bool × Option FitOutcome
  | 0, r => (r, [], none)
  | fuel + 1, r =>
    let step := adapter.reduceMsgs r
    if step.1 then
      let r2 := setKey step.2 "response_truncated" (.j (.bool true))
      match marshalMap r2 with
      | none => (r2, [true], some (.errorOut marshalFailMsg))
      | some s =>
        if (byteLen s : Int) ≤ maxSize then (r2, [true], some (.success s))
        else
          let rest := fitPhase2 adapter maxSize fuel r2
          (rest.1, true :: rest.2.1, rest.2.2)
    else (step.2, [false], none)

/-- The `fitResult` function of `tools`, instrumented with the list of
shrink steps it takes (the outcome component is exactly the Go return
value; the event list exists only so theorems can speak about the order
and number of phase steps). -/
def fitResultT (result : RMap) (maxSize : Int) (adapter : ResultAdapter) :
    FitOutcome × List FitEvent :=
  if maxSize ≤ 0 then (passThru result, [])
  else
    match marshalMap result with
    | none => (.errorOut marshalFailMsg, [])
    | some s0 =>
      if (byteLen s0 : Int) ≤ maxSize then (.success s0, [])
      else
        let p1 := fitPhase1 adapter maxSize [500, 200, 100, 50] result
        match p1.2.2 with
        | some o => (o, p1.2.1.map FitEvent.truncate)
        | none =>
          let p2 := fitPhase2 adapter maxSize 20 p1.1
          let evs := p1.2.1.map FitEvent.truncate ++ p2.2.1.map FitEvent.reduce
          match p2.2.2 with
          | some o => (o, evs)
          | none =>
            match adapter.lastResort with
            | some fb => (passThru (fb p2.1), evs ++ [.fallback])
            | none => (passThru (setKey p2.1 "response_truncated" (.j (.bool true))), evs)

/-- The observable return value of `fitResult`. -/
def fitResult (result : RMap) (maxSize : Int) (adapter : ResultAdapter) : FitOutcome :=
  (fitResultT result maxSize adapter).1

/-! ### Context assembly (`get_log_context`) -/

/-- The `filterOutContextMessageID` function: drop the target's own id. -/
def filterOutContextMessageID (messages : List MessageWrapper) (messageID : String) :
    List MessageWrapper :=
  messages.filter (fun mw => !(mw.Message.ID == messageID))

/-- The loop of `deduplicateContextMessagesByID` with its `seen` set:
messages with an empty id pass through unchecked, others are kept only
on first occurrence. -/
def dedupCtxGo (seen : List String) : List MessageWrapper → List MessageWrapper
  | [] => []
  | mw :: rest =>
    if mw.Message.ID = "" then mw :: dedupCtxGo seen rest
    else if mw.Message.ID ∈ seen then dedupCtxGo seen rest
    else mw :: dedupCtxGo (mw.Message.ID :: seen) rest

/-- The `deduplicateContextMessagesByID` function. -/
def deduplicateContextMessagesByID (messages : List MessageWrapper) : List MessageWrapper :=
  dedupCtxGo [] messages

/-- The non-empty ids of a message list (the `beforeIDs` set of
`removeContextOverlapByID`). -/
def nonemptyIDs (messages : List MessageWrapper) : List String :=
  (messages.map (fun mw => mw.Message.ID)).filter (fun s => !(s == ""))

/-- The `removeContextOverlapByID` function: drop from `after` every
message whose non-empty id already occurs (with a non-empty id) in
`before`. -/
def removeContextOverlapByID (after before : List MessageWrapper) : List MessageWrapper :=
  if after.length = 0 ∨ before.length = 0 then after
  else if (nonemptyIDs before).length = 0 then after
  else after.filter (fun mw =>
    mw.Message.ID == "" || !((nonemptyIDs before).contains mw.Message.ID))

/-- The `messages_before` pipeline of `getLogContextHandler`: filter out
the target id, reverse to chronological order, deduplicate by id, and
cut to the requested count. -/
def assembleBefore (resp : List MessageWrapper) (messageID : String) (before : Nat) :
    List MessageWrapper :=
  let l := deduplicateContextMessagesByID (filterOutContextMessageID resp messageID).reverse
  if before < l.length then l.take before else l

/-- The `messages_after` pipeline of `getLogContextHandler`: filter out
the target id, deduplicate by id, remove overlap with the finalized
`messages_before`, and cut to the requested count. -/
def assembleAfter (resp : List MessageWrapper) (messageID : String) (after : Nat)
    (messagesBefore : List MessageWrapper) : List MessageWrapper :=
  let l := deduplicateContextMessagesByID (filterOutContextMessageID resp messageID)
  let l := removeContextOverlapByID l messagesBefore
  if after < l.length then l.take after else l

/-- The ids of a message list, in order. -/
def idsOf (messages : List MessageWrapper) : List String :=
  messages.map (fun mw => mw.Message.ID)

/-- The `contextMessageCount` helper of `fitContextResult`. -/
def contextMessageCount (result : RMap) (key : String) : Nat :=
  match alookup result key with
  | some (.msgs l) => l.length
  | _ => 0

/-- The `reduceContextMessages` helper of `fitContextResult`. -/
def reduceContextMessages (result : RMap) (key : String) (count : Nat) : RMap :=
  match alookup result key with
  | some (.msgs l) => if count < l.length then setKey result key (.msgs (l.take count)) else result
  | _ => result

/-- The `reduceMsgs` closure that `fitContextResult` installs for a
context window: refuse when at most two messages remain in total,
otherwise halve both sides (minimum one each while non-empty) and mark
`context_incomplete`. -/
def contextReduceMsgs (result : RMap) : Bool × RMap :=
  let before := contextMessageCount result "messages_before"
  let after := contextMessageCount result "messages_after"
  if before + after ≤ 2 then (false, result)
  else
    let newBefore := before / 2
    let newBefore := if newBefore < 1 ∧ 0 < before then 1 else newBefore
    let newAfter := after / 2
    let newAfter := if newAfter < 1 ∧ 0 < after then 1 else newAfter
    let r := reduceContextMessages result "messages_before" newBefore
    let r := reduceContextMessages r "messages_after" newAfter
    (true, setKey r "context_incomplete" (.j (.bool true)))

/-! ### Byte-level string truncation (`truncateString` in tools) -/

/-- Go's `utf8.RuneStart`: a byte that is not a UTF-8 continuation byte. -/
def runeStart (b : Nat) : Bool := Nat.land b 0xC0 != 0x80

/-- The backwards walk of `truncateString`: the largest position `k ≤
maxBytes` with `k = 0` or `runeStart s[k]`. -/
def backToBoundary (s : List Nat) : Nat → Nat
  | 0 => 0
  | i + 1 => if runeStart (s.getD (i + 1) 0) then i + 1 else backToBoundary s i

/-- The truncation marker `"...[truncated]"` as bytes. -/
def truncSuffix : List Nat := utf8Bytes "...[truncated]"

/-- The `truncateString` function of `tools`, on Go strings as byte
sequences: unchanged when within the limit, otherwise a prefix cut back
to a rune boundary plus the marker. -/
def truncateString (s : List Nat) (maxBytes : Nat) : List Nat :=
  if s.length ≤ maxBytes then s
  else s.take (backToBoundary s maxBytes) ++ truncSuffix

/-! ### Auxiliary notions used only to state and prove theorems -/

/-- Invariant tying the `seen` map of `Deduplicate` to the group list:
`seen` maps each hash to the index of the first (and only) group whose
representative carries that hash. -/
def DedupInv (hashFields : List String)
    (acc : List (String × Nat) × List DedupResult) : Prop :=
  ∀ h, alookup acc.1 h = groupIdx hashFields h acc.2

/-- Key-set update performed by `setKey` at the level of key lists. -/
def addKey (ks : List String) (k : String) : List String :=
  if k ∈ ks then ks else ks ++ [k]

/-- Two association lists that represent the same Go map: identical
lookups and the same keys up to order. -/
def assocEquiv {α : Type} (l1 l2 : List (String × α)) : Prop :=
  (∀ k, alookup l1 k = alookup l2 k) ∧ List.Perm (mapKeys l1) (mapKeys l2)

/-- A small concrete message wrapper used by concrete instances. -/
def sampleWrapper (id : String) : MessageWrapper :=
  ⟨⟨id, "2024-01-01T00:00:00.000Z", "svc", "hello", []⟩, "idx"⟩

/-- A message wrapper whose message has an empty id, as produced by
`UnmarshalJSON` when the upstream document lacks an `_id` string. -/
def emptyIDWrapper : MessageWrapper := ⟨⟨"", "", "", "", []⟩, "idx"⟩

/-- A one-message-per-side context result map. -/
def ctxOneOne : RMap :=
  [("messages_before", .msgs [sampleWrapper "b1"]),
   ("messages_after", .msgs [sampleWrapper "a1"])]

/-- A two-before, one-after context result map. -/
def ctxTwoOne : RMap :=
  [("messages_before", .msgs [sampleWrapper "b1", sampleWrapper "b2"]),
   ("messages_after", .msgs [sampleWrapper "a1"])]

/-- A concrete message with two extension fields. -/
def twoFieldMessage : Message :=
  ⟨"id1", "2024-01-01T00:00:00.000Z", "src", "body", [("foo", .str "x"), ("bar", .num 2)]⟩

/-- An adapter that can neither truncate nor reduce and has no fallback. -/
def inertAdapter : ResultAdapter :=
  ⟨fun _ r => r, fun r => (false, r), none⟩

/-- A small one-key result map. -/
def tinyResult : RMap := [("total_results", .j (.num 3))]

/-- A result map too large for a one-byte budget. -/
def bigResult : RMap := [("data", .j (.str "aaaaaaaaaaaaaaaaaaaa"))]

/-! ## Lemmas about the association-list map model -/

theorem alookup_setKey_self {α : Type} (l : List (String × α)) (k : String) (v : α) :
    alookup (setKey l k v) k = some v := by
  induction l with
  | nil => simp [setKey, alookup]
  | cons kv rest ih =>
    obtain ⟨k', v'⟩ := kv
    by_cases h : k' = k
    · simp [setKey, h, alookup]
    · simp [setKey, h, alookup, ih]

theorem alookup_setKey_ne {α : Type} (l : List (String × α)) (k k' : String) (v : α)
    (h : k ≠ k') : alookup (setKey l k v) k' = alookup l k' := by
  induction l with
  | nil => simp [setKey, alookup, h]
  | cons kv rest ih =>
    obtain ⟨k1, v1⟩ := kv
    by_cases h1 : k1 = k
    · subst h1; simp [setKey, alookup, h]
    · simp [setKey, h1, alookup, ih]

theorem mapKeys_nil {α : Type} : mapKeys ([] : List (String × α)) = [] := rfl

theorem mapKeys_cons {α : Type} (kv : String × α) (l : List (String × α)) :
    mapKeys (kv :: l) = kv.1 :: mapKeys l := rfl

theorem alookup_eq_none_of_not_mem {α : Type} (l : List (String × α)) (k : String)
    (h : k ∉ mapKeys l) : alookup l k = none := by
  induction l with
  | nil => rfl
  | cons kv rest ih =>
    obtain ⟨k1, v1⟩ := kv
    simp only [mapKeys_cons, List.mem_cons] at h
    push_neg at h
    have h1 : ¬ k1 = k := fun e => h.1 e.symm
    simp [alookup, h1, ih h.2]

theorem mem_of_alookup_eq_some {α : Type} (l : List (String × α)) (k : String) (v : α)
    (h : alookup l k = some v) : k ∈ mapKeys l := by
  induction l with
  | nil => simp [alookup] at h
  | cons kv rest ih =>
    obtain ⟨k1, v1⟩ := kv
    rw [mapKeys_cons]
    by_cases h1 : k1 = k
    · exact h1 ▸ List.mem_cons_self _ _
    · simp only [alookup, if_neg h1] at h
      exact List.mem_cons_of_mem _ (ih h)

/-! ## Claim C10: byte-level string truncation -/

theorem backToBoundary_le (s : List Nat) (m : Nat) : backToBoundary s m ≤ m := by
  induction m with
  | zero => simp [backToBoundary]
  | succ i ih =>
    unfold backToBoundary
    split
    · exact Nat.le_refl _
    · exact Nat.le_succ_of_le ih

theorem backToBoundary_boundary (s : List Nat) (m : Nat) :
    backToBoundary s m = 0 ∨ runeStart (s.getD (backToBoundary s m) 0) = true := by
  induction m with
  | zero => left; rfl
  | succ i ih =>
    unfold backToBoundary
    split
    · next h => right; exact h
    · exact ih

/-- C10: `truncateString` returns its input unchanged when it already
fits in `maxBytes` bytes; otherwise it returns a prefix of the input cut
back to a UTF-8 rune boundary at or before `maxBytes` with the
`"...[truncated]"` marker appended, so the output can exceed `maxBytes`
by the 14-byte marker, and for inputs barely over the limit the output
is longer than the input itself. -/
theorem truncateString_spec :
    (∀ (s : List Nat) (maxBytes : Nat), s.length ≤ maxBytes → truncateString s maxBytes = s) ∧
    (∀ (s : List Nat) (maxBytes : Nat), maxBytes < s.length →
      ∃ k, k ≤ maxBytes ∧ (k = 0 ∨ runeStart (s.getD k 0) = true) ∧
        truncateString s maxBytes = s.take k ++ truncSuffix ∧
        (truncateString s maxBytes).length ≤ maxBytes + truncSuffix.length ∧
        truncSuffix.length = 14) ∧
    (∃ (s : List Nat) (maxBytes : Nat), maxBytes < s.length ∧
      s.length < (truncateString s maxBytes).length) := by
  refine ⟨?_, ?_, ?_⟩
  · intro s m h
    simp [truncateString, h]
  · intro s m h
    have hnot : ¬ s.length ≤ m := by omega
    have e : truncateString s m = s.take (backToBoundary s m) ++ truncSuffix := by
      simp [truncateString, hnot]
    refine ⟨backToBoundary s m, backToBoundary_le s m, backToBoundary_boundary s m, e, ?_, by decide⟩
    have h14 : truncSuffix.length = 14 := by decide
    rw [e, List.length_append, List.length_take, h14]
    have := backToBoundary_le s m
    omega
  · exact ⟨[65, 65, 65], 1, by decide, by decide⟩

/-- Witness for C10 at concrete inputs: a 2-byte string fits a 3-byte
limit unchanged, and a 3-byte string over a 1-byte limit grows to 15
bytes. -/
theorem truncateString_spec_witness :
    truncateString [65, 66] 3 = [65, 66] ∧
    ∃ k, k ≤ 1 ∧ (k = 0 ∨ runeStart ([65, 65, 65].getD k 0) = true) ∧
      truncateString [65, 65, 65] 1 = [65, 65, 65].take k ++ truncSuffix ∧
      (truncateString [65, 65, 65] 1).length ≤ 1 + truncSuffix.length ∧
      truncSuffix.length = 14 :=
  ⟨truncateString_spec.1 [65, 66] 3 (by decide),
   truncateString_spec.2.1 [65, 65, 65] 1 (by decide)⟩

/-! ## Claim C8: non-positive byte budget is a pass-through -/

/-- C8: with a byte budget that is zero or negative, `fitResult` is a
pass-through: no truncation or count-reduction step runs (the step trace
is empty), the result map is serialized as-is, and no
`response_truncated` marker is added. -/
theorem fitResult_nonpositive_budget (result : RMap) (maxSize : Int) (adapter : ResultAdapter)
    (h : maxSize ≤ 0) :
    fitResultT result maxSize adapter = (passThru result, []) ∧
    (∀ s, marshalMap result = some s → fitResult result maxSize adapter = .success s) := by
  constructor
  · simp [fitResultT, h]
  · intro s hs
    simp [fitResult, fitResultT, h, passThru, hs]

/-- Witness for C8: budget `0` on a small map returns its plain JSON
serialization with an empty step trace. -/
theorem fitResult_nonpositive_budget_witness :
    fitResultT tinyResult 0 inertAdapter = (passThru tinyResult, []) ∧
    fitResult tinyResult 0 inertAdapter = .success "\x7b\"total_results\":3\x7d" := by
  have h := fitResult_nonpositive_budget tinyResult 0 inertAdapter (by decide)
  exact ⟨h.1, h.2 "\x7b\"total_results\":3\x7d" rfl⟩

/-! ## Claim C5: count reduction for context windows -/

theorem contextMessageCount_setKey_msgs (r : RMap) (k : String) (l : List MessageWrapper) :
    contextMessageCount (setKey r k (.msgs l)) k = l.length := by
  simp [contextMessageCount, alookup_setKey_self]

theorem contextMessageCount_setKey_ne (r : RMap) (k k' : String) (v : GVal) (h : k ≠ k') :
    contextMessageCount (setKey r k v) k' = contextMessageCount r k' := by
  simp [contextMessageCount, alookup_setKey_ne _ _ _ _ h]

theorem cmc_eq_of_alookup (r : RMap) (key : String) (l : List MessageWrapper)
    (hl : alookup r key = some (.msgs l)) : contextMessageCount r key = l.length := by
  unfold contextMessageCount
  simp [hl]

theorem cmc_congr (r1 r2 : RMap) (k : String) (h : alookup r1 k = alookup r2 k) :
    contextMessageCount r1 k = contextMessageCount r2 k := by
  unfold contextMessageCount
  simp [h]

theorem cmc_cases (r : RMap) (key : String) (h : 1 ≤ contextMessageCount r key) :
    ∃ l, alookup r key = some (.msgs l) ∧ contextMessageCount r key = l.length := by
  unfold contextMessageCount at h
  cases e : alookup r key with
  | none => rw [e] at h; simp at h
  | some v =>
    cases v with
    | j jv => rw [e] at h; simp at h
    | wrapper mw => rw [e] at h; simp at h
    | msgs l => exact ⟨l, rfl, cmc_eq_of_alookup r key l e⟩

theorem reduceContext_eq (r : RMap) (key : String) (n : Nat) (l : List MessageWrapper)
    (hl : alookup r key = some (.msgs l)) :
    reduceContextMessages r key n =
      if n < l.length then setKey r key (GVal.msgs (l.take n)) else r := by
  unfold reduceContextMessages
  simp [hl]

theorem reduceContext_spec (r : RMap) (key : String) (n : Nat) (l : List MessageWrapper)
    (hl : alookup r key = some (.msgs l)) (hn : n ≤ l.length) (_h1 : 1 ≤ n) :
    contextMessageCount (reduceContextMessages r key n) key = n ∧
    (∀ k', key ≠ k' → alookup (reduceContextMessages r key n) k' = alookup r k') := by
  rw [reduceContext_eq r key n l hl]
  by_cases hlt : n < l.length
  · rw [if_pos hlt]
    constructor
    · rw [contextMessageCount_setKey_msgs, List.length_take]
      omega
    · intro k' hk
      exact alookup_setKey_ne _ _ _ _ hk
  · rw [if_neg hlt]
    constructor
    · rw [cmc_eq_of_alookup r key l hl]
      omega
    · intro _ _
      rfl

/-- Counterexample to C5 as stated: on a context result with one
message on each side (both sides non-empty), `reduceMsgs` is invoked,
returns `false`, leaves the result untouched and does **not** set
`context_incomplete`. -/
theorem contextReduce_counterexample :
    (contextReduceMsgs ctxOneOne).1 = false ∧
    (contextReduceMsgs ctxOneOne).2 = ctxOneOne ∧
    alookup (contextReduceMsgs ctxOneOne).2 "context_incomplete" = none :=
  ⟨rfl, rfl, rfl⟩

/-- C5 (amended): for a context result with non-empty before/after
lists, `reduceMsgs` returns `false` (and leaves the result unchanged,
in particular without touching `context_incomplete`) exactly when only
one message remains on each side, i.e. when no further reduction is
possible; otherwise it halves both sides independently down to a
minimum of one each, sets `context_incomplete`, and returns `true`. -/
theorem contextReduce_amended (result : RMap)
    (hb : 1 ≤ contextMessageCount result "messages_before")
    (ha : 1 ≤ contextMessageCount result "messages_after") :
    (contextMessageCount result "messages_before" +
        contextMessageCount result "messages_after" ≤ 2 →
      contextReduceMsgs result = (false, result)) ∧
    (3 ≤ contextMessageCount result "messages_before" +
        contextMessageCount result "messages_after" →
      (contextReduceMsgs result).1 = true ∧
      contextMessageCount (contextReduceMsgs result).2 "messages_before"
        = max 1 (contextMessageCount result "messages_before" / 2) ∧
      contextMessageCount (contextReduceMsgs result).2 "messages_after"
        = max 1 (contextMessageCount result "messages_after" / 2) ∧
      alookup (contextReduceMsgs result).2 "context_incomplete"
        = some (.j (.bool true))) := by
  constructor
  · intro hle
    unfold contextReduceMsgs
    rw [if_pos hle]
  · intro h3
    have hnot : ¬ (contextMessageCount result "messages_before" +
        contextMessageCount result "messages_after" ≤ 2) := by omega
    obtain ⟨lB, hlB, hlenB⟩ := cmc_cases result "messages_before" hb
    obtain ⟨lA, hlA, hlenA⟩ := cmc_cases result "messages_after" ha
    have hkey : ("messages_before" : String) ≠ "messages_after" := by decide
    have hkeyI : ("messages_before" : String) ≠ "context_incomplete" := by decide
    have hkeyI' : ("messages_after" : String) ≠ "context_incomplete" := by decide
    have e : contextReduceMsgs result =
        (true, setKey
          (reduceContextMessages
            (reduceContextMessages result "messages_before"
              (if contextMessageCount result "messages_before" / 2 < 1 ∧
                  0 < contextMessageCount result "messages_before" then 1
                else contextMessageCount result "messages_before" / 2))
            "messages_after"
            (if contextMessageCount result "messages_after" / 2 < 1 ∧
                0 < contextMessageCount result "messages_after" then 1
              else contextMessageCount result "messages_after" / 2))
          "context_incomplete" (.j (.bool true))) := by
      unfold contextReduceMsgs
      rw [if_neg hnot]
    have hnb : (if contextMessageCount result "messages_before" / 2 < 1 ∧
        0 < contextMessageCount result "messages_before" then 1
        else contextMessageCount result "messages_before" / 2)
        = max 1 (contextMessageCount result "messages_before" / 2) := by
      split <;> omega
    have hna : (if contextMessageCount result "messages_after" / 2 < 1 ∧
        0 < contextMessageCount result "messages_after" then 1
        else contextMessageCount result "messages_after" / 2)
        = max 1 (contextMessageCount result "messages_after" / 2) := by
      split <;> omega
    rw [e, hnb, hna]
    have hB := reduceContext_spec result "messages_before"
      (max 1 (contextMessageCount result "messages_before" / 2)) lB hlB
      (by omega) (by omega)
    have hA := reduceContext_spec
      (reduceContextMessages result "messages_before"
        (max 1 (contextMessageCount result "messages_before" / 2)))
      "messages_after" (max 1 (contextMessageCount result "messages_after" / 2)) lA
      (by rw [(hB.2 "messages_after" hkey)]; exact hlA)
      (by omega) (by omega)
    refine ⟨rfl, ?_, ?_, ?_⟩
    · rw [contextMessageCount_setKey_ne _ _ _ _ (by decide)]
      have hc : contextMessageCount
          (reduceContextMessages
            (reduceContextMessages result "messages_before"
              (max 1 (contextMessageCount result "messages_before" / 2)))
            "messages_after" (max 1 (contextMessageCount result "messages_after" / 2)))
          "messages_before"
          = contextMessageCount
            (reduceContextMessages result "messages_before"
              (max 1 (contextMessageCount result "messages_before" / 2)))
            "messages_before" :=
        cmc_congr _ _ _ (hA.2 "messages_before" (fun h => hkey h.symm))
      rw [hc, hB.1]
    · rw [contextMessageCount_setKey_ne _ _ _ _ (by decide)]
      exact hA.1
    · exact alookup_setKey_self _ _ _

/-- Witness for the amended C5 at a concrete context result with two
messages before and one after: reduction fires, both sides end at one
message, and `context_incomplete` is set. -/
theorem contextReduce_amended_witness :
    (contextReduceMsgs ctxTwoOne).1 = true ∧
    contextMessageCount (contextReduceMsgs ctxTwoOne).2 "messages_before"
      = max 1 (contextMessageCount ctxTwoOne "messages_before" / 2) ∧
    contextMessageCount (contextReduceMsgs ctxTwoOne).2 "messages_after"
      = max 1 (contextMessageCount ctxTwoOne "messages_after" / 2) ∧
    alookup (contextReduceMsgs ctxTwoOne).2 "context_incomplete"
      = some (.j (.bool true)) :=
  (contextReduce_amended ctxTwoOne (by decide) (by decide)).2 (by decide)

/-! ## Claim C4: id invariants of the assembled context window -/

theorem idsOf_cons (mw : MessageWrapper) (l : List MessageWrapper) :
    idsOf (mw :: l) = mw.Message.ID :: idsOf l := rfl

theorem dedupCtxGo_sublist (l : List MessageWrapper) :
    ∀ seen : List String, List.Sublist (dedupCtxGo seen l) l := by
  induction l with
  | nil => intro seen; simp [dedupCtxGo]
  | cons mw rest ih =>
    intro seen
    unfold dedupCtxGo
    by_cases h0 : mw.Message.ID = ""
    · rw [if_pos h0]
      exact List.Sublist.cons₂ _ (ih seen)
    · rw [if_neg h0]
      by_cases hmem : mw.Message.ID ∈ seen
      · rw [if_pos hmem]
        exact List.Sublist.cons _ (ih seen)
      · rw [if_neg hmem]
        exact List.Sublist.cons₂ _ (ih _)

theorem removeOverlap_sublist (a b : List MessageWrapper) :
    List.Sublist (removeContextOverlapByID a b) a := by
  unfold removeContextOverlapByID
  split
  · exact List.Sublist.refl _
  · split
    · exact List.Sublist.refl _
    · exact List.filter_sublist _

theorem takeIf_sublist (l : List MessageWrapper) (n : Nat) :
    List.Sublist (if n < l.length then l.take n else l) l := by
  split
  · exact List.take_sublist _ _
  · exact List.Sublist.refl _

theorem dedupCtxGo_nonempty_nodup (l : List MessageWrapper) :
    ∀ seen : List String,
      ((idsOf (dedupCtxGo seen l)).filter (fun s => !(s == ""))).Nodup ∧
      (∀ x ∈ (idsOf (dedupCtxGo seen l)).filter (fun s => !(s == "")), x ∉ seen) := by
  induction l with
  | nil => intro seen; simp [dedupCtxGo, idsOf]
  | cons mw rest ih =>
    intro seen
    unfold dedupCtxGo
    by_cases h0 : mw.Message.ID = ""
    · rw [if_pos h0]
      rw [idsOf_cons, h0]
      simpa using ih seen
    · rw [if_neg h0]
      by_cases hmem : mw.Message.ID ∈ seen
      · rw [if_pos hmem]
        exact ih seen
      · rw [if_neg hmem]
        rw [idsOf_cons]
        have ihh := ih (mw.Message.ID :: seen)
        have hfil : (mw.Message.ID :: idsOf (dedupCtxGo (mw.Message.ID :: seen) rest)).filter
            (fun s => !(s == ""))
            = mw.Message.ID ::
              (idsOf (dedupCtxGo (mw.Message.ID :: seen) rest)).filter (fun s => !(s == "")) := by
          simp [h0]
        rw [hfil]
        constructor
        · rw [List.nodup_cons]
          exact ⟨fun hin => (ihh.2 _ hin) (List.mem_cons_self _ _), ihh.1⟩
        · intro x hx
          rcases List.mem_cons.1 hx with h | h
          · subst h; exact hmem
          · exact fun hs => (ihh.2 _ h) (List.mem_cons_of_mem _ hs)

theorem mem_filterOut_id_ne (resp : List MessageWrapper) (messageID : String)
    (mw : MessageWrapper) (h : mw ∈ filterOutContextMessageID resp messageID) :
    ¬ (mw.Message.ID = messageID) := by
  unfold filterOutContextMessageID at h
  rw [List.mem_filter] at h
  simpa using h.2

theorem mem_nonemptyIDs (b : List MessageWrapper) (id : String)
    (hmem : id ∈ idsOf b) (hne : id ≠ "") : id ∈ nonemptyIDs b := by
  unfold nonemptyIDs
  rw [List.mem_filter]
  exact ⟨hmem, by simp [hne]⟩

theorem removeOverlap_not_in_before (a b : List MessageWrapper) (mw : MessageWrapper)
    (h : mw ∈ removeContextOverlapByID a b) (hne : mw.Message.ID ≠ "") :
    mw.Message.ID ∉ idsOf b := by
  unfold removeContextOverlapByID at h
  split at h
  · next hcase =>
    rcases hcase with ha | hb
    · exact absurd h (by simp [List.length_eq_zero.1 ha])
    · simp [idsOf, List.length_eq_zero.1 hb]
  · next hcase =>
    split at h
    · next hids =>
      intro hmem
      have hin := mem_nonemptyIDs b mw.Message.ID hmem hne
      rw [List.length_eq_zero.1 hids] at hin
      simp at hin
    · next hids =>
      rw [List.mem_filter] at h
      have hp := h.2
      intro hmem
      have hin := mem_nonemptyIDs b mw.Message.ID hmem hne
      simp [hne] at hp
      exact hp hin

/-- Counterexample to C4 as stated: two upstream messages with an empty
id (as happens when the backend documents carry no `_id` string) both
survive assembly, so ids do repeat inside `messages_before`. -/
theorem context_window_counterexample :
    ¬ (idsOf (assembleBefore [emptyIDWrapper, emptyIDWrapper] "target" 5)).Nodup := by
  decide

/-- C4 (amended): in every assembled context window the target's id
never appears on either side, non-empty ids never repeat within
`messages_before`, within `messages_after`, or across the two lists
(messages with an empty id are exempt from deduplication and overlap
removal), and an id shared by both sides is kept in `messages_before`
and removed from `messages_after`. -/
theorem context_window_ids (respB respA : List MessageWrapper) (messageID : String)
    (nB nA : Nat) :
    (∀ mw ∈ assembleBefore respB messageID nB, ¬ (mw.Message.ID = messageID)) ∧
    (∀ mw ∈ assembleAfter respA messageID nA (assembleBefore respB messageID nB),
      ¬ (mw.Message.ID = messageID)) ∧
    ((idsOf (assembleBefore respB messageID nB)).filter (fun s => !(s == ""))).Nodup ∧
    ((idsOf (assembleAfter respA messageID nA (assembleBefore respB messageID nB))).filter
      (fun s => !(s == ""))).Nodup ∧
    (∀ id ∈ idsOf (assembleAfter respA messageID nA (assembleBefore respB messageID nB)),
      id ≠ "" → id ∉ idsOf (assembleBefore respB messageID nB)) := by
  have hsubB : List.Sublist (assembleBefore respB messageID nB)
      (deduplicateContextMessagesByID (filterOutContextMessageID respB messageID).reverse) := by
    unfold assembleBefore
    exact takeIf_sublist _ _
  have hsubA1 : List.Sublist (assembleAfter respA messageID nA (assembleBefore respB messageID nB))
      (removeContextOverlapByID
        (deduplicateContextMessagesByID (filterOutContextMessageID respA messageID))
        (assembleBefore respB messageID nB)) := by
    unfold assembleAfter
    exact takeIf_sublist _ _
  have hsubA2 : List.Sublist (assembleAfter respA messageID nA (assembleBefore respB messageID nB))
      (deduplicateContextMessagesByID (filterOutContextMessageID respA messageID)) :=
    hsubA1.trans (removeOverlap_sublist _ _)
  refine ⟨?_, ?_, ?_, ?_, ?_⟩
  · intro mw hmw
    have h1 := (dedupCtxGo_sublist _ []).subset (hsubB.subset hmw)
    exact mem_filterOut_id_ne respB messageID mw (List.mem_reverse.1 h1)
  · intro mw hmw
    have h1 := (dedupCtxGo_sublist _ []).subset (hsubA2.subset hmw)
    exact mem_filterOut_id_ne respA messageID mw h1
  · exact ((dedupCtxGo_nonempty_nodup _ []).1).sublist ((hsubB.map _).filter _)
  · exact ((dedupCtxGo_nonempty_nodup _ []).1).sublist ((hsubA2.map _).filter _)
  · intro id hid hne
    rcases List.mem_map.1 hid with ⟨mw, hmw, hmweq⟩
    have h1 := hsubA1.subset hmw
    have h2 := removeOverlap_not_in_before _ _ mw h1 (hmweq ▸ hne)
    exact hmweq ▸ h2

/-- Witness for C4 at a concrete window: the assembled one-message
before side does not carry the target's id, and its non-empty ids are
duplicate-free. -/
theorem context_window_ids_witness :
    ¬ ((sampleWrapper "b1").Message.ID = "target") ∧
    ((idsOf (assembleBefore [sampleWrapper "b1"] "target" 5)).filter
      (fun s => !(s == ""))).Nodup :=
  ⟨(context_window_ids [sampleWrapper "b1"] [] "target" 5 5).1 (sampleWrapper "b1")
      (List.mem_singleton.2 rfl),
   (context_window_ids [sampleWrapper "b1"] [] "target" 5 5).2.2.1⟩

/-! ## Claim C2: deduplication grouping and count conservation -/

theorem sumCounts_nil : sumCounts [] = 0 := rfl

theorem sumCounts_cons (g : DedupResult) (gs : List DedupResult) :
    sumCounts (g :: gs) = g.Count + sumCounts gs := by
  simp [sumCounts]

theorem sumCounts_append (l1 l2 : List DedupResult) :
    sumCounts (l1 ++ l2) = sumCounts l1 + sumCounts l2 := by
  simp [sumCounts]

theorem sumCounts_updateAt_bump (rs : List DedupResult) (id : String) :
    ∀ i, i < rs.length → sumCounts (updateAt i (bumpGroup id) rs) = sumCounts rs + 1 := by
  induction rs with
  | nil => intro i h; simp at h
  | cons g gs ih =>
    intro i h
    cases i with
    | zero =>
      simp only [updateAt, sumCounts_cons, bumpGroup]
      omega
    | succ i' =>
      simp only [updateAt, sumCounts_cons]
      rw [ih i' (by simpa using h)]
      omega

theorem groupIdx_lt_length (hf : List String) (h : String) :
    ∀ (rs : List DedupResult) i, groupIdx hf h rs = some i → i < rs.length := by
  intro rs
  induction rs with
  | nil => intro i hi; simp [groupIdx] at hi
  | cons g gs ih =>
    intro i hi
    unfold groupIdx at hi
    by_cases he : hashMessage g.Message hf = h
    · rw [if_pos he] at hi
      cases hi
      simp
    · rw [if_neg he] at hi
      cases e : groupIdx hf h gs with
      | none => rw [e] at hi; simp at hi
      | some j =>
        rw [e] at hi
        simp only [Option.map_some'] at hi
        cases hi
        have := ih j e
        simp only [List.length_cons]
        omega

theorem groupIdx_cons (hf : List String) (h : String) (g : DedupResult)
    (gs : List DedupResult) :
    groupIdx hf h (g :: gs) =
      if hashMessage g.Message hf = h then some 0
      else (groupIdx hf h gs).map (· + 1) := rfl

theorem updateAt_nil {α : Type} (i : Nat) (f : α → α) : updateAt i f [] = [] := by
  simp [updateAt]

theorem updateAt_cons_zero {α : Type} (f : α → α) (x : α) (xs : List α) :
    updateAt 0 f (x :: xs) = f x :: xs := rfl

theorem updateAt_cons_succ {α : Type} (i : Nat) (f : α → α) (x : α) (xs : List α) :
    updateAt (i + 1) f (x :: xs) = x :: updateAt i f xs := rfl

theorem groupIdx_updateAt (hf : List String) (h id : String) (rs : List DedupResult) :
    ∀ i, groupIdx hf h (updateAt i (bumpGroup id) rs) = groupIdx hf h rs := by
  induction rs with
  | nil => intro i; rw [updateAt_nil]
  | cons g gs ih =>
    intro i
    cases i with
    | zero =>
      rw [updateAt_cons_zero, groupIdx_cons, groupIdx_cons]
      rfl
    | succ i' =>
      rw [updateAt_cons_succ, groupIdx_cons, groupIdx_cons, ih i']

theorem groupIdx_append_single (hf : List String) (h : String) (rs : List DedupResult)
    (g : DedupResult) :
    groupIdx hf h (rs ++ [g]) =
      match groupIdx hf h rs with
      | some i => some i
      | none => if hashMessage g.Message hf = h then some rs.length else none := by
  induction rs with
  | nil =>
    rw [List.nil_append, groupIdx_cons]
    by_cases hg : hashMessage g.Message hf = h
    · simp [hg, groupIdx]
    · simp [hg, groupIdx]
  | cons g0 gs ih =>
    rw [List.cons_append, groupIdx_cons, groupIdx_cons, ih]
    by_cases he : hashMessage g0.Message hf = h
    · simp [he]
    · rw [if_neg he, if_neg he]
      cases e : groupIdx hf h gs with
      | some i => simp
      | none =>
        by_cases hg : hashMessage g.Message hf = h
        · simp [hg]
        · simp [hg]

theorem dedupStep_eq_some (hf : List String)
    (acc : List (String × Nat) × List DedupResult) (mw : MessageWrapper) (idx : Nat)
    (e : alookup acc.1 (hashMessage mw.Message hf) = some idx) :
    dedupStep hf acc mw = (acc.1, updateAt idx (bumpGroup mw.Message.ID) acc.2) := by
  unfold dedupStep
  simp [e]

theorem dedupStep_eq_none (hf : List String)
    (acc : List (String × Nat) × List DedupResult) (mw : MessageWrapper)
    (e : alookup acc.1 (hashMessage mw.Message hf) = none) :
    dedupStep hf acc mw =
      (setKey acc.1 (hashMessage mw.Message hf) acc.2.length, acc.2 ++ [newGroup mw]) := by
  unfold dedupStep
  simp [e]

theorem dedupStep_inv (hf : List String) (acc : List (String × Nat) × List DedupResult)
    (mw : MessageWrapper) (hinv : DedupInv hf acc) : DedupInv hf (dedupStep hf acc mw) := by
  intro h
  cases e : alookup acc.1 (hashMessage mw.Message hf) with
  | some idx =>
    rw [dedupStep_eq_some hf acc mw idx e]
    rw [groupIdx_updateAt]
    exact hinv h
  | none =>
    rw [dedupStep_eq_none hf acc mw e]
    rw [groupIdx_append_single]
    by_cases hh : hashMessage mw.Message hf = h
    · subst hh
      rw [alookup_setKey_self]
      rw [← hinv _, e]
      simp [newGroup]
    · rw [alookup_setKey_ne _ _ _ _ hh, hinv h]
      cases e2 : groupIdx hf h acc.2 with
      | some i => simp
      | none => simp [newGroup, hh]

theorem foldl_dedupStep_inv (hf : List String) (ms : List MessageWrapper) :
    ∀ acc, DedupInv hf acc → DedupInv hf (ms.foldl (dedupStep hf) acc) := by
  induction ms with
  | nil => intro acc h; exact h
  | cons mw rest ih => intro acc h; exact ih _ (dedupStep_inv hf acc mw h)

theorem foldl_dedupStep_sum (hf : List String) (ms : List MessageWrapper) :
    ∀ acc, DedupInv hf acc →
      sumCounts (ms.foldl (dedupStep hf) acc).2 = sumCounts acc.2 + ms.length := by
  induction ms with
  | nil => intro acc _; simp
  | cons mw rest ih =>
    intro acc hinv
    rw [List.foldl_cons, ih _ (dedupStep_inv hf acc mw hinv)]
    have hstep : sumCounts (dedupStep hf acc mw).2 = sumCounts acc.2 + 1 := by
      cases e : alookup acc.1 (hashMessage mw.Message hf) with
      | some idx =>
        rw [dedupStep_eq_some hf acc mw idx e]
        have hlt : idx < acc.2.length := by
          have hi := hinv (hashMessage mw.Message hf)
          rw [e] at hi
          exact groupIdx_lt_length hf _ acc.2 idx hi.symm
        exact sumCounts_updateAt_bump acc.2 mw.Message.ID idx hlt
      | none =>
        rw [dedupStep_eq_none hf acc mw e]
        simp [sumCounts_append, sumCounts_cons, newGroup, sumCounts]
    rw [hstep]
    simp only [List.length_cons]
    omega

/-- C2: deduplication groups in first-occurrence order: an unseen
content hash appends a fresh group with count 1 and the message's id as
its only sample, a seen hash increments the first matching group in
place and appends the id; consequently the group counts sum to the
batch length and an empty batch yields an empty result. -/
theorem deduplicate_grouping :
    (∀ hf, Deduplicate [] hf = []) ∧
    (∀ msgs hf, sumCounts (Deduplicate msgs hf) = msgs.length) ∧
    (∀ msgs mw hf,
      Deduplicate (msgs ++ [mw]) hf =
        match groupIdx hf (hashMessage mw.Message hf) (Deduplicate msgs hf) with
        | some i => updateAt i (bumpGroup mw.Message.ID) (Deduplicate msgs hf)
        | none => Deduplicate msgs hf ++ [newGroup mw]) := by
  refine ⟨fun hf => rfl, ?_, ?_⟩
  · intro msgs hf
    have h := foldl_dedupStep_sum hf msgs ([], []) (fun _ => rfl)
    simpa [Deduplicate, sumCounts_nil] using h
  · intro msgs mw hf
    unfold Deduplicate
    rw [List.foldl_append, List.foldl_cons, List.foldl_nil]
    have hinv := foldl_dedupStep_inv hf msgs ([], []) (fun _ => rfl)
    cases e : alookup (msgs.foldl (dedupStep hf) ([], [])).1 (hashMessage mw.Message hf) with
    | some idx =>
      rw [dedupStep_eq_some hf _ mw idx e]
      have hi := hinv (hashMessage mw.Message hf)
      rw [e] at hi
      rw [← hi]
    | none =>
      rw [dedupStep_eq_none hf _ mw e]
      have hi := hinv (hashMessage mw.Message hf)
      rw [e] at hi
      rw [← hi]

/-! ## Claim C1: phase structure and bounded termination of fitResult -/

theorem fitPhase1_prefix (a : ResultAdapter) (m : Int) :
    ∀ (caps : List Nat) (r : RMap),
      (∃ t, (fitPhase1 a m caps r).2.1 ++ t = caps) ∧
      ((fitPhase1 a m caps r).2.2 = none → (fitPhase1 a m caps r).2.1 = caps) := by
  intro caps
  induction caps with
  | nil =>
    intro r
    exact ⟨⟨[], rfl⟩, fun _ => rfl⟩
  | cons cap caps ih =>
    intro r
    simp only [fitPhase1]
    split
    · exact ⟨⟨caps, rfl⟩, by intro h; simp at h⟩
    · split
      · exact ⟨⟨caps, rfl⟩, by intro h; simp at h⟩
      · refine ⟨?_, ?_⟩
        · obtain ⟨t, ht⟩ := (ih (setKey (a.truncateMsgs cap r) "response_truncated"
            (GVal.j (JVal.bool true)))).1
          exact ⟨t, by simp [ht]⟩
        · intro h
          have hc := (ih (setKey (a.truncateMsgs cap r) "response_truncated"
            (GVal.j (JVal.bool true)))).2 h
          simp [hc]

theorem fitPhase2_shape (a : ResultAdapter) (m : Int) :
    ∀ (fuel : Nat) (r : RMap),
      ((∃ k, (fitPhase2 a m fuel r).2.1 = List.replicate k true) ∨
        (∃ k, (fitPhase2 a m fuel r).2.1 = List.replicate k true ++ [false])) ∧
      (fitPhase2 a m fuel r).2.1.length ≤ fuel := by
  intro fuel
  induction fuel with
  | zero => intro r; exact ⟨.inl ⟨0, rfl⟩, by simp [fitPhase2]⟩
  | succ fuel ih =>
    intro r
    simp only [fitPhase2]
    split
    · split
      · exact ⟨.inl ⟨1, rfl⟩, by simp⟩
      · split
        · exact ⟨.inl ⟨1, rfl⟩, by simp⟩
        · obtain ⟨shape, hlen⟩ := ih (setKey (a.reduceMsgs r).2 "response_truncated"
            (GVal.j (JVal.bool true)))
          refine ⟨?_, ?_⟩
          · rcases shape with ⟨k, hk⟩ | ⟨k, hk⟩
            · exact .inl ⟨k + 1, by simp [hk, List.replicate_succ]⟩
            · exact .inr ⟨k + 1, by simp [hk, List.replicate_succ]⟩
          · simp only [List.length_cons]
            omega
    · exact ⟨.inr ⟨0, rfl⟩, by simp⟩

/-- C1: with a positive byte budget, the shrink steps taken by
`fitResult` are: Phase 1 truncations along a prefix of the cap sequence
`500, 200, 100, 50` in that order, then at most 20 `reduceMsgs` calls
(entered only after all four caps were used), all of which return
`true` except possibly the last — the loop stops at the first `false` —
and finally at most one fallback step; in total at most `4 + 20 + 1`
shrink steps, so the function always terminates and returns a value. -/
theorem fitResult_phase_structure (result : RMap) (maxSize : Int) (adapter : ResultAdapter)
    (hpos : 0 < maxSize) :
    ∃ caps bs rest,
      (fitResultT result maxSize adapter).2 =
        caps.map FitEvent.truncate ++ bs.map FitEvent.reduce ++ rest ∧
      (∃ t, caps ++ t = [500, 200, 100, 50]) ∧
      ((∃ k, bs = List.replicate k true) ∨ (∃ k, bs = List.replicate k true ++ [false])) ∧
      bs.length ≤ 20 ∧
      (bs ≠ [] → caps = [500, 200, 100, 50]) ∧
      (rest = [] ∨ (rest = [FitEvent.fallback] ∧ caps = [500, 200, 100, 50])) ∧
      (fitResultT result maxSize adapter).2.length ≤ 25 := by
  have hneg : ¬ maxSize ≤ 0 := by omega
  simp only [fitResultT]
  rw [if_neg hneg]
  split
  · exact ⟨[], [], [], by simp, ⟨[500, 200, 100, 50], rfl⟩, .inl ⟨0, rfl⟩, by simp,
      fun h => absurd rfl h, .inl rfl, by simp⟩
  · split
    · exact ⟨[], [], [], by simp, ⟨[500, 200, 100, 50], rfl⟩, .inl ⟨0, rfl⟩, by simp,
        fun h => absurd rfl h, .inl rfl, by simp⟩
    · obtain ⟨⟨t, ht⟩, hfull⟩ := fitPhase1_prefix adapter maxSize [500, 200, 100, 50] result
      have hcapslen : (fitPhase1 adapter maxSize [500, 200, 100, 50] result).2.1.length ≤ 4 := by
        have := congrArg List.length ht
        simp only [List.length_append] at this
        simp at this
        omega
      split
      · refine ⟨(fitPhase1 adapter maxSize [500, 200, 100, 50] result).2.1, [], [],
          by simp, ⟨t, ht⟩, .inl ⟨0, rfl⟩, by simp, fun h => absurd rfl h, .inl rfl, ?_⟩
        simp only [List.length_map, List.map_nil, List.append_nil, List.length_append,
          List.length_nil]
        omega
      · next hp1none =>
        have hcaps : (fitPhase1 adapter maxSize [500, 200, 100, 50] result).2.1
            = [500, 200, 100, 50] := hfull hp1none
        obtain ⟨hshape, hlen⟩ := fitPhase2_shape adapter maxSize 20
          (fitPhase1 adapter maxSize [500, 200, 100, 50] result).1
        split
        · refine ⟨_, (fitPhase2 adapter maxSize 20
            (fitPhase1 adapter maxSize [500, 200, 100, 50] result).1).2.1, [],
            by simp, ⟨t, ht⟩, hshape, hlen, fun _ => hcaps, .inl rfl, ?_⟩
          simp only [List.length_append, List.length_map, List.append_nil, List.length_nil]
          omega
        · split
          · refine ⟨_, (fitPhase2 adapter maxSize 20
              (fitPhase1 adapter maxSize [500, 200, 100, 50] result).1).2.1,
              [FitEvent.fallback],
              by simp, ⟨t, ht⟩, hshape, hlen, fun _ => hcaps, .inr ⟨rfl, hcaps⟩, ?_⟩
            simp only [List.length_append, List.length_map, List.length_cons, List.length_nil]
            omega
          · refine ⟨_, (fitPhase2 adapter maxSize 20
              (fitPhase1 adapter maxSize [500, 200, 100, 50] result).1).2.1, [],
              by simp, ⟨t, ht⟩, hshape, hlen, fun _ => hcaps, .inl rfl, ?_⟩
            simp only [List.length_append, List.length_map, List.append_nil, List.length_nil]
            omega

/-- Witness for C1 at a concrete result, budget and adapter. -/
theorem fitResult_phase_structure_witness :
    ∃ caps bs rest,
      (fitResultT tinyResult 5 inertAdapter).2 =
        caps.map FitEvent.truncate ++ bs.map FitEvent.reduce ++ rest ∧
      (∃ t, caps ++ t = [500, 200, 100, 50]) ∧
      ((∃ k, bs = List.replicate k true) ∨ (∃ k, bs = List.replicate k true ++ [false])) ∧
      bs.length ≤ 20 ∧
      (bs ≠ [] → caps = [500, 200, 100, 50]) ∧
      (rest = [] ∨ (rest = [FitEvent.fallback] ∧ caps = [500, 200, 100, 50])) ∧
      (fitResultT tinyResult 5 inertAdapter).2.length ≤ 25 :=
  fitResult_phase_structure tinyResult 5 inertAdapter (by decide)

/-! ## Claim C6: size exhaustion is never reported as an error -/

/-- C6: when the initial serialization is over budget and neither Phase
1 nor Phase 2 produced an early outcome, a provided fallback's output is
returned with no size check at all, and with no fallback the best-effort
oversized serialization is returned with `response_truncated` set; in
both cases a successful serialization yields a success result, never an
error. -/
theorem fitResult_size_exhaustion (result : RMap) (maxSize : Int) (adapter : ResultAdapter)
    (hpos : 0 < maxSize) (s0 : String) (h0 : marshalMap result = some s0)
    (hbig : ¬ (byteLen s0 : Int) ≤ maxSize)
    (h1 : (fitPhase1 adapter maxSize [500, 200, 100, 50] result).2.2 = none)
    (h2 : (fitPhase2 adapter maxSize 20
      (fitPhase1 adapter maxSize [500, 200, 100, 50] result).1).2.2 = none) :
    (∀ fb, adapter.lastResort = some fb →
      fitResult result maxSize adapter =
        passThru (fb (fitPhase2 adapter maxSize 20
          (fitPhase1 adapter maxSize [500, 200, 100, 50] result).1).1)) ∧
    (adapter.lastResort = none →
      fitResult result maxSize adapter =
        passThru (setKey (fitPhase2 adapter maxSize 20
          (fitPhase1 adapter maxSize [500, 200, 100, 50] result).1).1
          "response_truncated" (GVal.j (JVal.bool true))) ∧
      alookup (setKey (fitPhase2 adapter maxSize 20
          (fitPhase1 adapter maxSize [500, 200, 100, 50] result).1).1
          "response_truncated" (GVal.j (JVal.bool true))) "response_truncated"
        = some (GVal.j (JVal.bool true)) ∧
      (∀ s, marshalMap (setKey (fitPhase2 adapter maxSize 20
          (fitPhase1 adapter maxSize [500, 200, 100, 50] result).1).1
          "response_truncated" (GVal.j (JVal.bool true))) = some s →
        fitResult result maxSize adapter = .success s)) := by
  have hneg : ¬ maxSize ≤ 0 := by omega
  constructor
  · intro fb hfb
    simp only [fitResult, fitResultT, h0, h1, h2, hfb]
    rw [if_neg hneg, if_neg hbig]
  · intro hnone
    have hmain : fitResult result maxSize adapter =
        passThru (setKey (fitPhase2 adapter maxSize 20
          (fitPhase1 adapter maxSize [500, 200, 100, 50] result).1).1
          "response_truncated" (GVal.j (JVal.bool true))) := by
      simp only [fitResult, fitResultT, h0, h1, h2, hnone]
      rw [if_neg hneg, if_neg hbig]
    refine ⟨hmain, alookup_setKey_self _ _ _, ?_⟩
    intro s hs
    rw [hmain]
    unfold passThru
    rw [hs]

/-- Witness for C6 at a concrete oversized result with an adapter that
cannot shrink it and has no fallback: the oversized serialization comes
back as a success with `response_truncated` set. -/
theorem fitResult_size_exhaustion_witness :
    fitResult bigResult 1 inertAdapter =
      passThru (setKey (fitPhase2 inertAdapter 1 20
        (fitPhase1 inertAdapter 1 [500, 200, 100, 50] bigResult).1).1
        "response_truncated" (GVal.j (JVal.bool true))) ∧
    alookup (setKey (fitPhase2 inertAdapter 1 20
        (fitPhase1 inertAdapter 1 [500, 200, 100, 50] bigResult).1).1
        "response_truncated" (GVal.j (JVal.bool true))) "response_truncated"
      = some (GVal.j (JVal.bool true)) ∧
    (∀ s, marshalMap (setKey (fitPhase2 inertAdapter 1 20
        (fitPhase1 inertAdapter 1 [500, 200, 100, 50] bigResult).1).1
        "response_truncated" (GVal.j (JVal.bool true))) = some s →
      fitResult bigResult 1 inertAdapter = .success s) :=
  (fitResult_size_exhaustion bigResult 1 inertAdapter (by decide)
    "\x7b\"data\":\"aaaaaaaaaaaaaaaaaaaa\"\x7d" rfl (by decide) (by decide) (by decide)).2 rfl

/-! ## Claim C7: field projection -/

theorem alookup_foldl_setKey (ex : List (String × JVal)) (k : String) :
    ∀ init, (mapKeys ex).Nodup →
      alookup (ex.foldl (fun acc kv => setKey acc kv.1 kv.2) init) k =
        match alookup ex k with
        | some v => some v
        | none => alookup init k := by
  induction ex with
  | nil => intro init _; simp [alookup]
  | cons kv rest ih =>
    intro init hnd
    obtain ⟨k1, v1⟩ := kv
    rw [mapKeys_cons] at hnd
    have hnd' := List.nodup_cons.1 hnd
    rw [List.foldl_cons, ih (setKey init k1 v1) hnd'.2]
    by_cases hk : k1 = k
    · subst hk
      rw [alookup_eq_none_of_not_mem _ _ hnd'.1]
      simp [alookup, alookup_setKey_self]
    · have hs : alookup (setKey init k1 v1) k = alookup init k :=
        alookup_setKey_ne _ _ _ _ hk
      cases e : alookup rest k with
      | some v => simp [alookup, hk, e]
      | none => simp [alookup, hk, e, hs]

theorem alookup_foldl_setKeyFiltered (fields : List String) (ex : List (String × JVal))
    (k : String) :
    ∀ init, (mapKeys ex).Nodup →
      alookup (ex.foldl (fun acc kv =>
          if fields.contains kv.1 then setKey acc kv.1 kv.2 else acc) init) k =
        match alookup ex k with
        | some v => if fields.contains k then some v else alookup init k
        | none => alookup init k := by
  induction ex with
  | nil => intro init _; simp [alookup]
  | cons kv rest ih =>
    intro init hnd
    obtain ⟨k1, v1⟩ := kv
    rw [mapKeys_cons] at hnd
    have hnd' := List.nodup_cons.1 hnd
    rw [List.foldl_cons]
    by_cases hm : k1 ∈ fields
    · by_cases hk : k1 = k
      · subst hk
        rw [ih _ hnd'.2, alookup_eq_none_of_not_mem _ _ hnd'.1]
        simp [alookup, hm, alookup_setKey_self]
      · rw [ih _ hnd'.2]
        have hs : alookup (setKey init k1 v1) k = alookup init k :=
          alookup_setKey_ne _ _ _ _ hk
        cases e : alookup rest k with
        | some v => simp [alookup, hk, hm, e, hs]
        | none => simp [alookup, hk, hm, e, hs]
    · by_cases hk : k1 = k
      · subst hk
        rw [ih _ hnd'.2, alookup_eq_none_of_not_mem _ _ hnd'.1]
        simp [alookup, hm]
      · rw [ih _ hnd'.2]
        cases e : alookup rest k with
        | some v => simp [alookup, hk, hm, e]
        | none => simp [alookup, hk, hm, e]

/-- Counterexample to C7 as stated: projecting with the non-empty field
list `["foo"]` still returns the `message` body field, which is neither
one of the claimed identity fields (`id`, `timestamp`, `source`) nor a
requested extension field. -/
theorem tofiltered_counterexample :
    alookup (ToFilteredMap twoFieldMessage ["foo"]) "message" = some (.str "body") ∧
    ("message" ∉ ["_id", "timestamp", "source", "foo"]) :=
  ⟨rfl, by decide⟩

/-- C7 (amended): with an empty field list every field is returned
unchanged (extension entries overriding a colliding core name, as Go map
copy does); with a non-empty list the four core fields `_id`,
`timestamp`, `source` and `message` are returned unconditionally, plus
exactly those extension fields whose name is requested. -/
theorem tofiltered_amended (m : Message) (k : String)
    (hnd : (mapKeys m.Extra).Nodup) :
    (alookup (ToFilteredMap m []) k =
      match alookup m.Extra k with
      | some v => some v
      | none => alookup (coreFields m) k) ∧
    (∀ fields, fields ≠ [] →
      alookup (ToFilteredMap m fields) k =
        match alookup m.Extra k with
        | some v => if fields.contains k then some v else alookup (coreFields m) k
        | none => alookup (coreFields m) k) := by
  constructor
  · unfold ToFilteredMap
    rw [if_pos (by simp)]
    exact alookup_foldl_setKey m.Extra k (coreFields m) hnd
  · intro fields hf
    unfold ToFilteredMap
    rw [if_neg (by simpa using hf)]
    exact alookup_foldl_setKeyFiltered fields m.Extra k (coreFields m) hnd

/-- Witness for the amended C7: the requested extension field `foo`
comes back from its `Extra` binding. -/
theorem tofiltered_amended_witness :
    alookup (ToFilteredMap twoFieldMessage ["foo"]) "foo" =
      match alookup twoFieldMessage.Extra "foo" with
      | some v => if (["foo"] : List String).contains "foo" then some v
                  else alookup (coreFields twoFieldMessage) "foo"
      | none => alookup (coreFields twoFieldMessage) "foo" :=
  (tofiltered_amended twoFieldMessage "foo" (by decide)).2 ["foo"] (by decide)

/-! ## Claim C9: hashMessage is total and falls back to fmt on marshal errors -/

theorem wordHex_length (w : Nat) : (wordHex w).length = 8 := rfl

theorem sha256hexBytes_length (msg : List Nat) : (sha256hexBytes msg).length = 64 := by
  unfold sha256hexBytes
  simp [String.length_append, wordHex_length]

/-- C9: `hashMessage` is total: the bytes fed to the hasher fall back to
the `fmt` `%v` rendering exactly when `json.Marshal` fails (instead of
propagating the error), and for every message — including one whose
extension map holds an unmarshalable value — the result is the 64
character hex SHA-256 digest of those bytes, hence non-empty. -/
theorem hashMessage_total :
    (∀ v : JVal, jsonMarshal v = none → marshalToHashBytes v = fmtV v) ∧
    (∀ msg hf, hashMessage msg hf = sha256hex (hashInput msg hf) ∧
      (hashMessage msg hf).length = 64 ∧ hashMessage msg hf ≠ "") := by
  constructor
  · intro v hv
    unfold marshalToHashBytes
    rw [hv]
  · intro msg hf
    refine ⟨rfl, sha256hexBytes_length _, ?_⟩
    intro h
    have hl : (hashMessage msg hf).length = 64 := sha256hexBytes_length _
    rw [h] at hl
    simp at hl

/-- Witness for C9: on a channel value, which `json.Marshal` rejects,
the hashed bytes are its `fmt` rendering. -/
theorem hashMessage_total_witness :
    marshalToHashBytes (.chan "0xc000016180") = fmtV (.chan "0xc000016180") :=
  hashMessage_total.1 (.chan "0xc000016180") rfl

/-! ## Claim C3: content-hash canonicalization and sensitivity -/

theorem charListLe_total : ∀ as bs, charListLe as bs = true ∨ charListLe bs as = true := by
  intro as
  induction as with
  | nil => intro bs; left; rfl
  | cons a as ih =>
    intro bs
    cases bs with
    | nil => right; rfl
    | cons b bs =>
      rcases lt_trichotomy a b with h | h | h
      · left; simp [charListLe, h]
      · subst h
        rcases ih bs with h2 | h2
        · left; simp [charListLe, lt_irrefl a, h2]
        · right; simp [charListLe, lt_irrefl a, h2]
      · right; simp [charListLe, h]

theorem charListLe_trans : ∀ as bs cs, charListLe as bs = true → charListLe bs cs = true →
    charListLe as cs = true := by
  intro as
  induction as with
  | nil => intro bs cs _ _; rfl
  | cons a as ih =>
    intro bs cs h1 h2
    cases bs with
    | nil => simp [charListLe] at h1
    | cons b bs =>
      cases cs with
      | nil => simp [charListLe] at h2
      | cons c cs =>
        by_cases hab : a < b
        · by_cases hbc : b < c
          · simp [charListLe, lt_trans hab hbc]
          · by_cases hcb : c < b
            · simp [charListLe, hbc, hcb] at h2
            · have hbc' : b = c := le_antisymm (not_lt.1 hcb) (not_lt.1 hbc)
              subst hbc'
              simp [charListLe, hab]
        · by_cases hba : b < a
          · simp [charListLe, hab, hba] at h1
          · have hab' : a = b := le_antisymm (not_lt.1 hba) (not_lt.1 hab)
            subst hab'
            simp only [charListLe, if_neg (lt_irrefl a)] at h1
            by_cases hac : a < c
            · simp [charListLe, hac]
            · by_cases hca : c < a
              · simp [charListLe, hac, hca] at h2
              · have hac' : a = c := le_antisymm (not_lt.1 hca) (not_lt.1 hac)
                subst hac'
                simp only [charListLe, if_neg (lt_irrefl a)] at h2 ⊢
                exact ih bs cs h1 h2

theorem charListLe_antisymm : ∀ as bs, charListLe as bs = true → charListLe bs as = true →
    as = bs := by
  intro as
  induction as with
  | nil =>
    intro bs h1 h2
    cases bs with
    | nil => rfl
    | cons b bs => simp [charListLe] at h2
  | cons a as ih =>
    intro bs h1 h2
    cases bs with
    | nil => simp [charListLe] at h1
    | cons b bs =>
      rcases lt_trichotomy a b with h | h | h
      · simp [charListLe, h, lt_asymm h] at h2
      · subst h
        have he : as = bs := ih bs
          (by simpa only [charListLe, if_neg (lt_irrefl a)] using h1)
          (by simpa only [charListLe, if_neg (lt_irrefl a)] using h2)
        rw [he]
      · simp [charListLe, h, lt_asymm h] at h1

theorem stringDataInj (a b : String) (h : a.data = b.data) : a = b := by
  cases a
  cases b
  exact congrArg String.mk h

theorem keyLe_total (a b : String) : keyLe a b = true ∨ keyLe b a = true :=
  charListLe_total a.data b.data

theorem keyLe_trans (a b c : String) (h1 : keyLe a b = true) (h2 : keyLe b c = true) :
    keyLe a c = true :=
  charListLe_trans a.data b.data c.data h1 h2

theorem keyLe_antisymm (a b : String) (h1 : keyLe a b = true) (h2 : keyLe b a = true) :
    a = b :=
  stringDataInj a b (charListLe_antisymm a.data b.data h1 h2)

theorem assocEquiv_refl {α : Type} (l : List (String × α)) : assocEquiv l l :=
  ⟨fun _ => rfl, List.Perm.refl _⟩

theorem assocEquiv_trans {α : Type} {l1 l2 l3 : List (String × α)}
    (h1 : assocEquiv l1 l2) (h2 : assocEquiv l2 l3) : assocEquiv l1 l3 :=
  ⟨fun k => (h1.1 k).trans (h2.1 k), h1.2.trans h2.2⟩

theorem mapKeys_setKey {α : Type} (l : List (String × α)) (k : String) (v : α) :
    mapKeys (setKey l k v) = addKey (mapKeys l) k := by
  induction l with
  | nil => simp [setKey, mapKeys, addKey]
  | cons kv rest ih =>
    obtain ⟨k1, v1⟩ := kv
    by_cases h : k1 = k
    · subst h
      simp [setKey, mapKeys_cons, addKey]
    · rw [show setKey ((k1, v1) :: rest) k v = (k1, v1) :: setKey rest k v by
        simp [setKey, h]]
      rw [mapKeys_cons, mapKeys_cons, ih]
      have h' : ¬ k = k1 := fun e => h e.symm
      unfold addKey
      by_cases hm : k ∈ mapKeys rest
      · simp [hm, h']
      · simp [hm, h']

theorem addKey_perm (K1 K2 : List String) (h : List.Perm K1 K2) (k : String) :
    List.Perm (addKey K1 k) (addKey K2 k) := by
  unfold addKey
  by_cases hm : k ∈ K1
  · rw [if_pos hm, if_pos (h.mem_iff.1 hm)]
    exact h
  · rw [if_neg hm, if_neg (fun hh => hm (h.mem_iff.2 hh))]
    exact h.append_right [k]

theorem assocEquiv_setKey {α : Type} (l1 l2 : List (String × α)) (h : assocEquiv l1 l2)
    (k : String) (v : α) : assocEquiv (setKey l1 k v) (setKey l2 k v) := by
  constructor
  · intro k'
    by_cases hk : k = k'
    · subst hk
      rw [alookup_setKey_self, alookup_setKey_self]
    · rw [alookup_setKey_ne _ _ _ _ hk, alookup_setKey_ne _ _ _ _ hk]
      exact h.1 k'
  · rw [mapKeys_setKey, mapKeys_setKey]
    exact addKey_perm _ _ h.2 k

theorem addKey_mem (K : List String) (k : String) (h : k ∈ K) : addKey K k = K := by
  unfold addKey
  rw [if_pos h]

theorem addKey_not_mem (K : List String) (k : String) (h : k ∉ K) :
    addKey K k = K ++ [k] := by
  unfold addKey
  rw [if_neg h]

theorem addKey_swap_perm (K1 K2 : List String) (h : List.Perm K1 K2) (k1 k2 : String)
    (hne : k1 ≠ k2) :
    List.Perm (addKey (addKey K1 k1) k2) (addKey (addKey K2 k2) k1) := by
  by_cases h1 : k1 ∈ K1 <;> by_cases h2 : k2 ∈ K1
  · have h1' : k1 ∈ K2 := h.mem_iff.1 h1
    have h2' : k2 ∈ K2 := h.mem_iff.1 h2
    rw [addKey_mem _ _ h1, addKey_mem _ _ h2, addKey_mem _ _ h2', addKey_mem _ _ h1']
    exact h
  · have h1' : k1 ∈ K2 := h.mem_iff.1 h1
    have h2' : k2 ∉ K2 := fun hh => h2 (h.mem_iff.2 hh)
    rw [addKey_mem _ _ h1, addKey_not_mem _ _ h2, addKey_not_mem _ _ h2',
      addKey_mem _ _ (List.mem_append_left [k2] h1')]
    exact h.append_right [k2]
  · have h1' : k1 ∉ K2 := fun hh => h1 (h.mem_iff.2 hh)
    have h2' : k2 ∈ K2 := h.mem_iff.1 h2
    rw [addKey_not_mem _ _ h1, addKey_mem _ _ h2', addKey_mem _ _
      (List.mem_append_left [k1] h2), addKey_not_mem _ _ h1']
    exact h.append_right [k1]
  · have h1' : k1 ∉ K2 := fun hh => h1 (h.mem_iff.2 hh)
    have h2' : k2 ∉ K2 := fun hh => h2 (h.mem_iff.2 hh)
    have hk2 : k2 ∉ K1 ++ [k1] := by
      simp only [List.mem_append, List.mem_singleton]
      rintro (hh | hh)
      · exact h2 hh
      · exact hne hh.symm
    have hk1 : k1 ∉ K2 ++ [k2] := by
      simp only [List.mem_append, List.mem_singleton]
      rintro (hh | hh)
      · exact h1' hh
      · exact hne hh
    rw [addKey_not_mem _ _ h1, addKey_not_mem _ _ h2', addKey_not_mem _ _ hk2,
      addKey_not_mem _ _ hk1, List.append_assoc, List.append_assoc]
    exact h.append (List.Perm.swap k2 k1 [])

theorem assocEquiv_setKey_swap {α : Type} (l1 l2 : List (String × α)) (h : assocEquiv l1 l2)
    (k1 k2 : String) (v1 v2 : α) (hne : k1 ≠ k2) :
    assocEquiv (setKey (setKey l1 k1 v1) k2 v2) (setKey (setKey l2 k2 v2) k1 v1) := by
  constructor
  · intro k
    by_cases hk2 : k2 = k
    · subst hk2
      rw [alookup_setKey_self, alookup_setKey_ne _ _ _ _ hne, alookup_setKey_self]
    · by_cases hk1 : k1 = k
      · subst hk1
        rw [alookup_setKey_ne _ _ _ _ hk2, alookup_setKey_self, alookup_setKey_self]
      · rw [alookup_setKey_ne _ _ _ _ hk2, alookup_setKey_ne _ _ _ _ hk1,
          alookup_setKey_ne _ _ _ _ hk1, alookup_setKey_ne _ _ _ _ hk2]
        exact h.1 k
  · rw [mapKeys_setKey, mapKeys_setKey, mapKeys_setKey, mapKeys_setKey]
    exact addKey_swap_perm _ _ h.2 k1 k2 hne

theorem assocEquiv_foldl_setKey {α : Type} (ex : List (String × α)) :
    ∀ l1 l2, assocEquiv l1 l2 →
      assocEquiv (ex.foldl (fun acc kv => setKey acc kv.1 kv.2) l1)
        (ex.foldl (fun acc kv => setKey acc kv.1 kv.2) l2) := by
  induction ex with
  | nil => exact fun _ _ h => h
  | cons kv rest ih =>
    intro l1 l2 h
    rw [List.foldl_cons, List.foldl_cons]
    exact ih _ _ (assocEquiv_setKey _ _ h kv.1 kv.2)

theorem foldl_setKey_perm {α : Type} (ex1 ex2 : List (String × α)) (hp : List.Perm ex1 ex2) :
    (mapKeys ex1).Nodup →
    ∀ l1 l2, assocEquiv l1 l2 →
      assocEquiv (ex1.foldl (fun acc kv => setKey acc kv.1 kv.2) l1)
        (ex2.foldl (fun acc kv => setKey acc kv.1 kv.2) l2) := by
  induction hp with
  | nil => exact fun _ _ _ h => h
  | cons x hp ih =>
    intro hnd l1 l2 h
    rw [List.foldl_cons, List.foldl_cons]
    rw [mapKeys_cons] at hnd
    exact ih (List.nodup_cons.1 hnd).2 _ _ (assocEquiv_setKey _ _ h x.1 x.2)
  | swap x y t =>
    intro hnd l1 l2 h
    rw [List.foldl_cons, List.foldl_cons, List.foldl_cons, List.foldl_cons]
    have hxy : y.1 ≠ x.1 := by
      rw [mapKeys_cons, mapKeys_cons] at hnd
      have := (List.nodup_cons.1 hnd).1
      simp only [List.mem_cons] at this
      exact fun e => this (Or.inl e)
    exact assocEquiv_foldl_setKey t _ _ (assocEquiv_setKey_swap l1 l2 h y.1 x.1 y.2 x.2 hxy)
  | trans hp1 hp2 ih1 ih2 =>
    intro hnd l1 l2 h
    have hperm := hp1.map (fun kv : String × α => kv.1)
    have hnd2 := hperm.nodup_iff.1 hnd
    exact assocEquiv_trans (ih1 hnd _ _ (assocEquiv_refl l1)) (ih2 hnd2 _ _ h)

theorem alookup_filter_bykey {α : Type} (p : String → Bool) (l : List (String × α))
    (k : String) :
    alookup (l.filter (fun kv => p kv.1)) k = if p k = true then alookup l k else none := by
  induction l with
  | nil => simp [alookup]
  | cons kv rest ih =>
    obtain ⟨k1, v1⟩ := kv
    by_cases hp : p k1 = true
    · rw [List.filter_cons_of_pos (by simpa using hp)]
      by_cases hk : k1 = k
      · subst hk
        simp [alookup, hp]
      · simp only [alookup, if_neg hk]
        exact ih
    · rw [List.filter_cons_of_neg (by simpa using hp)]
      by_cases hk : k1 = k
      · subst hk
        rw [ih]
        simp [alookup, hp]
      · simp only [alookup, if_neg hk]
        exact ih

theorem mapKeys_filter {α : Type} (p : String → Bool) (l : List (String × α)) :
    mapKeys (l.filter (fun kv => p kv.1)) = (mapKeys l).filter p := by
  induction l with
  | nil => rfl
  | cons kv rest ih =>
    by_cases hp : p kv.1 = true
    · rw [List.filter_cons_of_pos (by simpa using hp), mapKeys_cons, mapKeys_cons,
        List.filter_cons_of_pos hp, ih]
    · rw [List.filter_cons_of_neg (by simpa using hp), mapKeys_cons,
        List.filter_cons_of_neg (by simpa using hp), ih]

theorem assocEquiv_filter_bykey {α : Type} (p : String → Bool) (l1 l2 : List (String × α))
    (h : assocEquiv l1 l2) :
    assocEquiv (l1.filter (fun kv => p kv.1)) (l2.filter (fun kv => p kv.1)) := by
  constructor
  · intro k
    rw [alookup_filter_bykey, alookup_filter_bykey, h.1 k]
  · rw [mapKeys_filter, mapKeys_filter]
    exact h.2.filter p

theorem sortedMap_eq_of_equiv (l1 l2 : List (String × JVal)) (h : assocEquiv l1 l2) :
    sortedMap l1 = sortedMap l2 := by
  haveI hT : IsTrans String (fun a b => keyLe a b = true) := ⟨keyLe_trans⟩
  haveI hTot : IsTotal String (fun a b => keyLe a b = true) := ⟨keyLe_total⟩
  haveI hAnti : IsAntisymm String (fun a b => keyLe a b = true) := ⟨keyLe_antisymm⟩
  unfold sortedMap
  have hperm : List.Perm (List.insertionSort (fun a b => keyLe a b = true) (mapKeys l1))
      (List.insertionSort (fun a b => keyLe a b = true) (mapKeys l2)) :=
    ((List.perm_insertionSort _ _).trans h.2).trans (List.perm_insertionSort _ _).symm
  have hs1 := List.sorted_insertionSort (fun a b => keyLe a b = true) (mapKeys l1)
  have hs2 := List.sorted_insertionSort (fun a b => keyLe a b = true) (mapKeys l2)
  rw [List.eq_of_perm_of_sorted hperm hs1 hs2]
  have hf : (fun k => (k, (alookup l1 k).getD JVal.null)) =
      (fun k => (k, (alookup l2 k).getD JVal.null)) :=
    funext (fun k => by rw [h.1 k])
  rw [hf]

theorem messageToMap_equiv (m1 m2 : Message) (hs : m1.Source = m2.Source)
    (hm : m1.Message = m2.Message) (hp : List.Perm m1.Extra m2.Extra)
    (hnd : (mapKeys m1.Extra).Nodup) :
    assocEquiv (messageToMap m1) (messageToMap m2) := by
  unfold messageToMap
  rw [hs, hm]
  exact foldl_setKey_perm m1.Extra m2.Extra hp hnd _ _ (assocEquiv_refl _)

theorem hashData_build_eq (hf : List String) (all1 all2 : List (String × JVal))
    (h : ∀ k, alookup all1 k = alookup all2 k) :
    ∀ data, hf.foldl (fun data f =>
        match alookup all1 f with
        | some v => setKey data f v
        | none => data) data =
      hf.foldl (fun data f =>
        match alookup all2 f with
        | some v => setKey data f v
        | none => data) data := by
  induction hf with
  | nil => intro _; rfl
  | cons f rest ih =>
    intro data
    rw [List.foldl_cons, List.foldl_cons, h f]
    exact ih _

theorem hashData_equiv (m1 m2 : Message) (hf : List String)
    (h : assocEquiv (messageToMap m1) (messageToMap m2)) :
    assocEquiv (hashData m1 hf) (hashData m2 hf) := by
  unfold hashData
  by_cases hlen : 0 < hf.length
  · rw [if_pos hlen, if_pos hlen, hashData_build_eq hf _ _ h.1 []]
    exact assocEquiv_refl _
  · rw [if_neg hlen, if_neg hlen]
    exact assocEquiv_filter_bykey (fun s => !(shouldSkipField s)) _ _ h

theorem mapKeys_foldl_setKey2 {α : Type} :
    ∀ (ex1 ex2 : List (String × α)), mapKeys ex1 = mapKeys ex2 →
      ∀ (b1 b2 : List (String × α)), mapKeys b1 = mapKeys b2 →
        mapKeys (ex1.foldl (fun acc kv => setKey acc kv.1 kv.2) b1)
          = mapKeys (ex2.foldl (fun acc kv => setKey acc kv.1 kv.2) b2) := by
  intro ex1
  induction ex1 with
  | nil =>
    intro ex2 hk b1 b2 hb
    cases ex2 with
    | nil => exact hb
    | cons kv r => simp [mapKeys] at hk
  | cons kv1 rest1 ih =>
    intro ex2 hk b1 b2 hb
    cases ex2 with
    | nil => simp [mapKeys] at hk
    | cons kv2 rest2 =>
      rw [mapKeys_cons, mapKeys_cons] at hk
      injection hk with hk1 hkr
      rw [List.foldl_cons, List.foldl_cons]
      apply ih rest2 hkr
      rw [mapKeys_setKey, mapKeys_setKey, hb, hk1]

theorem alookup_foldl_setKey_not_mem {α : Type} (ex : List (String × α)) (k : String)
    (hk : k ∉ mapKeys ex) :
    ∀ b, alookup (ex.foldl (fun acc kv => setKey acc kv.1 kv.2) b) k = alookup b k := by
  induction ex with
  | nil => intro _; rfl
  | cons kv rest ih =>
    intro b
    rw [mapKeys_cons] at hk
    simp only [List.mem_cons] at hk
    push_neg at hk
    rw [List.foldl_cons, ih hk.2, alookup_setKey_ne _ _ _ _ (fun e => hk.1 e.symm)]

theorem map_eq_map_mem {α β : Type} (f g : α → β) :
    ∀ (l : List α), l.map f = l.map g → ∀ a ∈ l, f a = g a := by
  intro l
  induction l with
  | nil => intro _ a ha; simp at ha
  | cons x xs ih =>
    intro h a ha
    simp only [List.map_cons, List.cons.injEq] at h
    rcases List.mem_cons.1 ha with he | hm
    · subst he; exact h.1
    · exact ih h.2 a hm

theorem sortedMap_ne_at_key (l1 l2 : List (String × JVal)) (k : String) (v1 v2 : JVal)
    (hkeys : mapKeys l1 = mapKeys l2)
    (h1 : alookup l1 k = some v1) (h2 : alookup l2 k = some v2) (hne : v1 ≠ v2) :
    sortedMap l1 ≠ sortedMap l2 := by
  intro heq
  unfold sortedMap at heq
  rw [hkeys] at heq
  have hmem : k ∈ List.insertionSort (fun a b => keyLe a b = true) (mapKeys l2) :=
    (List.perm_insertionSort _ _).mem_iff.2 (mem_of_alookup_eq_some _ _ _ h2)
  have hp := map_eq_map_mem _ _ _ heq k hmem
  rw [h1, h2] at hp
  simp only [Option.getD_some, Prod.mk.injEq] at hp
  exact hne hp.2

theorem hashData_default_eq (m : Message) :
    hashData m [] = (messageToMap m).filter (fun kv => !(shouldSkipField kv.1)) := by
  unfold hashData
  rw [if_neg (by simp)]

theorem alookup_hashData_message (m : Message) (hmsg : "message" ∉ mapKeys m.Extra) :
    alookup (hashData m []) "message" = some (.str m.Message) := by
  rw [hashData_default_eq, alookup_filter_bykey (fun s => !(shouldSkipField s)),
    if_pos (by decide)]
  unfold messageToMap
  rw [alookup_foldl_setKey_not_mem _ _ hmsg]
  rfl

theorem alookup_hashData_key (m : Message) (k : String) (v : JVal)
    (hnd : (mapKeys m.Extra).Nodup) (hv : alookup m.Extra k = some v)
    (hsk : shouldSkipField k = false) :
    alookup (hashData m []) k = some v := by
  rw [hashData_default_eq, alookup_filter_bykey (fun s => !(shouldSkipField s)),
    if_pos (by simp [hsk])]
  unfold messageToMap
  rw [alookup_foldl_setKey m.Extra k _ hnd, hv]

theorem hashData_keys_eq (m1 m2 : Message) (hkeys : mapKeys m1.Extra = mapKeys m2.Extra) :
    mapKeys (hashData m1 []) = mapKeys (hashData m2 []) := by
  rw [hashData_default_eq, hashData_default_eq,
    mapKeys_filter (fun s => !(shouldSkipField s)), mapKeys_filter (fun s => !(shouldSkipField s))]
  congr 1
  unfold messageToMap
  exact mapKeys_foldl_setKey2 m1.Extra m2.Extra hkeys _ _ rfl

/-- C3: the content hash ignores the identity fields — two messages
with the same source, body and extension map hash identically no matter
their `id` and `timestamp` (the wrapper's index is not even an input) —
and is deterministic thanks to key-sorted canonicalization: permuting
the extension map does not change the hash.  Conversely (barring a
collision of the serialization-plus-digest, i.e. at the level of the
canonical key-sorted preimage), messages that differ in the body, or in
the value of any hashed (non-skipped) extension field, have different
hash preimages. -/
theorem hash_content_invariance :
    (∀ (m1 m2 : Message) (hf : List String),
      m1.Source = m2.Source → m1.Message = m2.Message → m1.Extra = m2.Extra →
      hashMessage m1 hf = hashMessage m2 hf) ∧
    (∀ (m1 m2 : Message) (hf : List String),
      m1.Source = m2.Source → m1.Message = m2.Message →
      List.Perm m1.Extra m2.Extra → (mapKeys m1.Extra).Nodup →
      hashMessage m1 hf = hashMessage m2 hf) ∧
    (∀ m1 m2 : Message,
      m1.Source = m2.Source → m1.Extra = m2.Extra → "message" ∉ mapKeys m1.Extra →
      m1.Message ≠ m2.Message →
      sortedMap (hashData m1 []) ≠ sortedMap (hashData m2 [])) ∧
    (∀ (m1 m2 : Message) (k : String) (v1 v2 : JVal),
      m1.Source = m2.Source → m1.Message = m2.Message →
      mapKeys m1.Extra = mapKeys m2.Extra →
      (mapKeys m1.Extra).Nodup → (mapKeys m2.Extra).Nodup →
      alookup m1.Extra k = some v1 → alookup m2.Extra k = some v2 →
      v1 ≠ v2 → shouldSkipField k = false →
      sortedMap (hashData m1 []) ≠ sortedMap (hashData m2 [])) := by
  refine ⟨?_, ?_, ?_, ?_⟩
  · intro m1 m2 hf hs hm he
    unfold hashMessage hashInput
    rw [show hashData m1 hf = hashData m2 hf by
      unfold hashData messageToMap
      rw [hs, hm, he]]
  · intro m1 m2 hf hs hm hp hnd
    unfold hashMessage hashInput
    rw [sortedMap_eq_of_equiv _ _ (hashData_equiv m1 m2 hf (messageToMap_equiv m1 m2 hs hm hp hnd))]
  · intro m1 m2 hs he hmsg hne
    refine sortedMap_ne_at_key _ _ "message" (.str m1.Message) (.str m2.Message)
      (hashData_keys_eq m1 m2 (by rw [he])) (alookup_hashData_message m1 hmsg)
      (alookup_hashData_message m2 (he ▸ hmsg)) ?_
    simp [hne]
  · intro m1 m2 k v1 v2 hs hm hkeys hnd1 hnd2 hv1 hv2 hne hsk
    exact sortedMap_ne_at_key _ _ k v1 v2 (hashData_keys_eq m1 m2 hkeys)
      (alookup_hashData_key m1 k v1 hnd1 hv1 hsk)
      (alookup_hashData_key m2 k v2 hnd2 hv2 hsk) hne

/-- Witness for C3 at concrete messages: identical content under
different ids and timestamps hashes identically, and two bodies that
differ give different canonical hash preimages. -/
theorem hash_content_invariance_witness :
    hashMessage ⟨"id1", "2024-01-01T00:00:00.000Z", "svc", "hello", []⟩ [] =
      hashMessage ⟨"id2", "2024-02-02T02:02:02.000Z", "svc", "hello", []⟩ [] ∧
    sortedMap (hashData ⟨"i", "t", "svc", "hello", []⟩ []) ≠
      sortedMap (hashData ⟨"i", "t", "svc", "world", []⟩ []) :=
  ⟨hash_content_invariance.1 _ _ [] rfl rfl rfl,
   hash_content_invariance.2.2.1 _ _ rfl rfl (by simp [mapKeys]) (by decide)⟩

end GraylogMCP
